import Mathlib

/-!
The bsclisp lexer (`main.go`): a shallow embedding of the lexer and theorems about it.

* A rune delivered by `bufio.Reader.ReadRune` is a Unicode scalar value, modelled by `Char`
  (an invalid encoding is delivered as U+FFFD, which is a `Char` as well).
* The reader is the list of runes not yet delivered plus the single unread slot of
  `bufio.Reader` (`lastRuneSize >= 0`): `UnreadRune` is only possible right after a successful
  `ReadRune`.
* Go strings built by `s + string(r)` are `String`s.
* `int` is `Int`: line and column stay below the input length plus one, far from 2^63.
* The loops `for { ... }` are recursions on a step budget; `Err.fuel` is the budget running out,
  and it is proved never to happen with the budget the definitions pass.
-/

namespace Bsclisp

/-! ## Tokens -/

/-- Go `type Token int`. -/
abbrev Token := Int

def EOF : Token := 0
def NUMBER : Token := 1
def IDENT : Token := 2
def ILLEGAL : Token := 3
def ADD : Token := 4
def SUB : Token := 5
def MUL : Token := 6
def DIV : Token := 7
def ASSIGN : Token := 8
def DEFINE : Token := 9
def SEMICOLON : Token := 10
def LPAREN : Token := 11
def RPAREN : Token := 12
def LESSTHAN : Token := 13
def GREATERTHAN : Token := 14

/-- Go `type Position struct { line int; column int }`. -/
structure Position where
  line : Int
  column : Int
deriving DecidableEq, Repr

/-! ## The `unicode` classifiers

`unicode.IsSpace`, `unicode.IsDigit` and `unicode.IsLetter` of the Go standard library answer
runes up to U+00FF (`MaxLatin1`) on a fast path written out in the library, and look the others
up in the range tables `White_Space`, `Digit` (category Nd) and `Letter` (category L). The tables
are data of the library: they are a parameter here, with the three facts about them that the
Unicode character database guarantees (the categories Nd and L are disjoint, and no
`White_Space` rune is in Nd or L). -/

/-- The range tables of package `unicode` above U+00FF. -/
structure RangeTables where
  White_Space : Char → Bool
  Digit : Char → Bool
  Letter : Char → Bool
  digit_not_space : ∀ r, Digit r = true → White_Space r = false
  letter_not_space : ∀ r, Letter r = true → White_Space r = false
  letter_not_digit : ∀ r, Letter r = true → Digit r = false

/-- Go `unicode.MaxLatin1`. -/
def MaxLatin1 : Nat := 0xFF

/-- Go `unicode.IsSpace`: on Latin-1 the runes `\t \n \v \f \r`, space, U+0085 and U+00A0. -/
def IsSpace (K : RangeTables) (r : Char) : Bool :=
  if r.toNat ≤ MaxLatin1 then
    decide (r.toNat = 0x09 ∨ r.toNat = 0x0A ∨ r.toNat = 0x0B ∨ r.toNat = 0x0C ∨ r.toNat = 0x0D
      ∨ r.toNat = 0x20 ∨ r.toNat = 0x85 ∨ r.toNat = 0xA0)
  else K.White_Space r

/-- Go `unicode.IsDigit`: on Latin-1 `'0' <= r && r <= '9'`. -/
def IsDigit (K : RangeTables) (r : Char) : Bool :=
  if r.toNat ≤ MaxLatin1 then decide (0x30 ≤ r.toNat ∧ r.toNat ≤ 0x39)
  else K.Digit r

/-- Go `unicode.IsLetter`: on Latin-1 the runes whose `properties` entry has a letter bit:
`A-Z`, `a-z`, U+00AA, U+00B5, U+00BA, U+00C0-U+00D6, U+00D8-U+00F6, U+00F8-U+00FF. -/
def IsLetter (K : RangeTables) (r : Char) : Bool :=
  if r.toNat ≤ MaxLatin1 then
    decide ((0x41 ≤ r.toNat ∧ r.toNat ≤ 0x5A) ∨ (0x61 ≤ r.toNat ∧ r.toNat ≤ 0x7A)
      ∨ r.toNat = 0xAA ∨ r.toNat = 0xB5 ∨ r.toNat = 0xBA
      ∨ (0xC0 ≤ r.toNat ∧ r.toNat ≤ 0xD6) ∨ (0xD8 ≤ r.toNat ∧ r.toNat ≤ 0xF6)
      ∨ (0xF8 ≤ r.toNat ∧ r.toNat ≤ 0xFF))
  else K.Letter r

/-- A finite excerpt of the range tables: the spaces U+1680, U+2000-U+200A, U+2028, U+2029,
U+202F, U+205F, U+3000, the Arabic-Indic digits U+0660-U+0669 and the Greek letters
U+0391-U+03A1, U+03A3-U+03A9, U+03B1-U+03C9. -/
def sampleTables : RangeTables where
  White_Space r := decide (r.toNat = 0x1680 ∨ (0x2000 ≤ r.toNat ∧ r.toNat ≤ 0x200A)
    ∨ r.toNat = 0x2028 ∨ r.toNat = 0x2029 ∨ r.toNat = 0x202F ∨ r.toNat = 0x205F
    ∨ r.toNat = 0x3000)
  Digit r := decide (0x660 ≤ r.toNat ∧ r.toNat ≤ 0x669)
  Letter r := decide ((0x391 ≤ r.toNat ∧ r.toNat ≤ 0x3A1) ∨ (0x3A3 ≤ r.toNat ∧ r.toNat ≤ 0x3A9)
    ∨ (0x3B1 ≤ r.toNat ∧ r.toNat ≤ 0x3C9))
  digit_not_space r := by simp only [decide_eq_true_eq, decide_eq_false_iff_not]; omega
  letter_not_space r := by simp only [decide_eq_true_eq, decide_eq_false_iff_not]; omega
  letter_not_digit r := by simp only [decide_eq_true_eq, decide_eq_false_iff_not]; omega

/-! ## The reader -/

/-- The state of `bufio.Reader` that `ReadRune` and `UnreadRune` use: the runes not yet
delivered, and the rune that `UnreadRune` may give back (`none` when `lastRuneSize < 0`). -/
structure Reader where
  buf : List Char
  last : Option Char
deriving DecidableEq, Repr

/-- The failures of the model. `unread` is the panic of `Backup` on `ErrInvalidUnreadRune`;
`fuel` is the step budget of a loop running out. -/
inductive Err where
  | unread
  | fuel
deriving DecidableEq, Repr

/-- Go `bufio.Reader.ReadRune`: `none` is `io.EOF`. Either way the unread slot is overwritten. -/
def ReadRune (rd : Reader) : Option Char × Reader :=
  match rd.buf with
  | [] => (none, { buf := [], last := none })
  | r :: rest => (some r, { buf := rest, last := some r })

/-- Go `bufio.Reader.UnreadRune`: gives the last rune back, once. -/
def UnreadRune (rd : Reader) : Except Err Reader :=
  match rd.last with
  | none => .error .unread
  | some r => .ok { buf := r :: rd.buf, last := none }

/-! ## The lexer -/

/-- Go `type Lexer struct { pos Position; reader *bufio.Reader }`. -/
structure Lexer where
  pos : Position
  reader : Reader
deriving DecidableEq, Repr

/-- What `Lex` returns: `(Position, Token, string)`. -/
structure Tok where
  pos : Position
  kind : Token
  lexeme : String
deriving DecidableEq, Repr

/-- Go `NewLexer`: line 1, column 0, a fresh reader on the input. -/
def NewLexer (input : List Char) : Lexer :=
  { pos := { line := 1, column := 0 }, reader := { buf := input, last := none } }

/-- Go `(*Lexer).resetPos`. -/
def resetPos (l : Lexer) : Lexer :=
  { l with pos := { line := l.pos.line + 1, column := 0 } }

/-- Go `(*Lexer).Backup`: panics when `UnreadRune` fails, else `column--`. -/
def Backup (l : Lexer) : Except Err Lexer :=
  match UnreadRune l.reader with
  | .error e => .error e
  | .ok rd => .ok { pos := { l.pos with column := l.pos.column - 1 }, reader := rd }

/-- The statement `l.pos.column++`, after a read that left the reader as `rd`. -/
def advance (l : Lexer) (rd : Reader) : Lexer :=
  { pos := { l.pos with column := l.pos.column + 1 }, reader := rd }

/-- The loop of `lexInt`, with the accumulator `number`. -/
def lexIntLoop (K : RangeTables) : Nat → Lexer → String → Except Err (String × Lexer)
  | 0, _, _ => .error .fuel
  | n + 1, l, number =>
    match ReadRune l.reader with
    | (none, rd) => .ok (number, { l with reader := rd })
    | (some r, rd) =>
      let l := advance l rd
      if IsDigit K r then
        lexIntLoop K n l (number ++ String.singleton r)
      else
        match Backup l with
        | .error e => .error e
        | .ok l => .ok (number, l)

/-- Go `(*Lexer).lexInt`. The loop reads at most every remaining rune and then `io.EOF`. -/
def lexInt (K : RangeTables) (l : Lexer) : Except Err (String × Lexer) :=
  lexIntLoop K (l.reader.buf.length + 1) l ""

/-- The statements of `lexIdent` after its loop, reached by `break`:
`switch ident { case "define": return ident }; return ident`. -/
def lexIdentSwitch (ident : String) : String :=
  if ident = "define" then ident else ident

/-- The loop of `lexIdent`, with the accumulator `ident`: at `io.EOF` it returns `ident`
directly, on a rune that is no letter it backs up and breaks to the statements after the loop. -/
def lexIdentLoop (K : RangeTables) : Nat → Lexer → String → Except Err (String × Lexer)
  | 0, _, _ => .error .fuel
  | n + 1, l, ident =>
    match ReadRune l.reader with
    | (none, rd) => .ok (ident, { l with reader := rd })
    | (some r, rd) =>
      let l := advance l rd
      if IsLetter K r then
        lexIdentLoop K n l (ident ++ String.singleton r)
      else
        match Backup l with
        | .error e => .error e
        | .ok l => .ok (lexIdentSwitch ident, l)

/-- Go `(*Lexer).lexIdent`. -/
def lexIdent (K : RangeTables) (l : Lexer) : Except Err (String × Lexer) :=
  lexIdentLoop K (l.reader.buf.length + 1) l ""

/-- The loop of `Lex`. -/
def LexLoop (K : RangeTables) : Nat → Lexer → Except Err (Tok × Lexer)
  | 0, _ => .error .fuel
  | n + 1, l =>
    match ReadRune l.reader with
    | (none, rd) => .ok (⟨l.pos, EOF, ""⟩, { l with reader := rd })
    | (some r, rd) =>
      let l := advance l rd
      if r = '\n' then LexLoop K n (resetPos l)
      else if r = ';' then .ok (⟨l.pos, SEMICOLON, ";"⟩, l)
      else if r = '+' then .ok (⟨l.pos, ADD, "+"⟩, l)
      else if r = '-' then .ok (⟨l.pos, SUB, "-"⟩, l)
      else if r = '*' then .ok (⟨l.pos, MUL, "*"⟩, l)
      else if r = '/' then .ok (⟨l.pos, DIV, "/"⟩, l)
      else if r = '=' then .ok (⟨l.pos, ASSIGN, "="⟩, l)
      else if r = '(' then .ok (⟨l.pos, LPAREN, "("⟩, l)
      else if r = ')' then .ok (⟨l.pos, RPAREN, ")"⟩, l)
      else if r = '<' then .ok (⟨l.pos, LESSTHAN, "<"⟩, l)
      else if r = '>' then .ok (⟨l.pos, GREATERTHAN, ">"⟩, l)
      else if IsSpace K r then LexLoop K n l
      else if IsDigit K r then
        let startPos := l.pos
        match Backup l with
        | .error e => .error e
        | .ok l =>
          match lexInt K l with
          | .error e => .error e
          | .ok (num, l) => .ok (⟨startPos, NUMBER, num⟩, l)
      else if IsLetter K r then
        let startPos := l.pos
        match Backup l with
        | .error e => .error e
        | .ok l =>
          match lexIdent K l with
          | .error e => .error e
          | .ok (ident, l) => .ok (⟨startPos, IDENT, ident⟩, l)
      else .ok (⟨l.pos, ILLEGAL, String.singleton r⟩, l)

/-- Go `(*Lexer).Lex`. Each turn of the loop reads one rune, so the remaining runes plus the
final `io.EOF` bound the turns. -/
def Lex (K : RangeTables) (l : Lexer) : Except Err (Tok × Lexer) :=
  LexLoop K (l.reader.buf.length + 1) l

/-- The first `n` calls of `Lex` on a lexer: the tokens returned, in order, and the lexer after
the last call. -/
def LexTimes (K : RangeTables) : Nat → Lexer → Except Err (List Tok × Lexer)
  | 0, l => .ok ([], l)
  | n + 1, l =>
    match Lex K l with
    | .error e => .error e
    | .ok (t, l) =>
      match LexTimes K n l with
      | .error e => .error e
      | .ok (ts, l) => .ok (t :: ts, l)

/-- The loop of `main`: `Lex` is called until it returns `EOF`; the result is the list of the
tokens that were printed (those before the first `EOF`) and the lexer at the `break`. -/
def mainLoop (K : RangeTables) : Nat → Lexer → Except Err (List Tok × Lexer)
  | 0, _ => .error .fuel
  | n + 1, l =>
    match Lex K l with
    | .error e => .error e
    | .ok (t, l) =>
      if t.kind = EOF then .ok ([], l)
      else
        match mainLoop K n l with
        | .error e => .error e
        | .ok (ts, l) => .ok (t :: ts, l)

/-- The scan of `main` on an input: a fresh lexer and the loop. Every call of `Lex` but the
last consumes a rune, so the input length plus one bounds the calls. -/
def scan (K : RangeTables) (input : List Char) : Except Err (List Tok × Lexer) :=
  mainLoop K (input.length + 1) (NewLexer input)

/-! ## The display table -/

/-- The entries of the keyed slice literal `var tokens = []string{ EOF: "EOF", ... }`. -/
def tokensLiteral : List (Token × String) :=
  [(EOF, "EOF"), (IDENT, "IDENT"), (NUMBER, "NUMBER"),
   (ADD, "+"), (SUB, "-"), (MUL, "*"), (DIV, "/"),
   (ASSIGN, "="), (DEFINE, "DEFINE"), (SEMICOLON, ";"), (LPAREN, "LPAREN"), (RPAREN, "RPAREN"),
   (LESSTHAN, "<"), (GREATERTHAN, ">")]

/-- Go `var tokens`: a keyed slice literal has length one more than its largest key, and the
indices without an entry hold the zero value `""`. -/
def tokens : List String :=
  (List.range ((tokensLiteral.map fun e => e.1.toNat).foldl max 0 + 1)).map fun i =>
    ((tokensLiteral.lookup (i : Int)).getD "")

/-- A Go string, named apart from `Token.String`. -/
abbrev GoString := String

/-- Go `func (t Token) String() string { return tokens[t] }`: `none` is the index-out-of-range
panic. -/
def Token.String (t : Token) : Option GoString :=
  if 0 ≤ t then tokens[t.toNat]? else none

/-! ## Vocabulary of the statements -/

/-- The ten runes that the `switch` of `Lex` returns as a token of their own (the cases
`';'` to `'>'`), with the kind of each. -/
def punctuation : List (Char × Token) :=
  [(';', SEMICOLON), ('+', ADD), ('-', SUB), ('*', MUL), ('/', DIV), ('=', ASSIGN),
   ('(', LPAREN), (')', RPAREN), ('<', LESSTHAN), ('>', GREATERTHAN)]

/-- Whether a rune is one of the ten runes of `punctuation`. -/
def isPunct (r : Char) : Bool := (punctuation.map Prod.fst).contains r

/-- The position after one more rune is consumed by the loop of `Lex`: `column++`, and
`resetPos` on a newline. -/
def stepPos (pos : Position) (r : Char) : Position :=
  if r = '\n' then ⟨pos.line + 1, 0⟩ else ⟨pos.line, pos.column + 1⟩

/-- What one call of `Lex` on the lexer `l` did, when it returned the token `t` and left the
lexer `l'`: it consumed the space runes `ws` (newlines included) and then the runes `lex` of the
token, which are no space runes; `lex` is empty exactly for `EOF`. -/
structure LexStep (K : RangeTables) (l : Lexer) (t : Tok) (l' : Lexer) (ws lex : List Char) :
    Prop where
  split : l.reader.buf = ws ++ lex ++ l'.reader.buf
  spaces : ∀ w ∈ ws, IsSpace K w = true
  solid : ∀ x ∈ lex, IsSpace K x = false
  lexeme : t.lexeme = String.mk lex
  eof_iff : t.kind = EOF ↔ lex = []
  at_end : lex = [] → l'.reader = ⟨[], none⟩
  tok_pos : t.pos = ⟨(ws.foldl stepPos l.pos).line,
    (ws.foldl stepPos l.pos).column + (lex.take 1).length⟩
  end_pos : l'.pos = ⟨(ws.foldl stepPos l.pos).line,
    (ws.foldl stepPos l.pos).column + lex.length⟩

/-- The position of a consumed text, counted on the text itself: the line is 1 plus the number
of newline runes in it, the column is the number of runes after its last newline. -/
def posOf (consumed : List Char) : Position :=
  ⟨1 + (consumed.count '\n' : Nat), ((consumed.reverse.takeWhile fun r => r != '\n').length : Nat)⟩

/-- `Scanned K before buf toks`: the tokens `toks` cover the input `buf`, which follows the
consumed text `before`, in order: each token is preceded by space runes only, its lexeme is a
non-empty stretch of runes that are no spaces, its kind is not `EOF`, its position is that of its
first rune, and only space runes follow the last token. -/
inductive Scanned (K : RangeTables) : List Char → List Char → List Tok → Prop
  | done (before ws : List Char) : (∀ w ∈ ws, IsSpace K w = true) → Scanned K before ws []
  | token (before ws lex rest : List Char) (t : Tok) (ts : List Tok) :
      (∀ w ∈ ws, IsSpace K w = true) → lex ≠ [] → (∀ x ∈ lex, IsSpace K x = false) →
      t.lexeme = String.mk lex → t.kind ≠ EOF →
      t.pos = ⟨(posOf (before ++ ws)).line, (posOf (before ++ ws)).column + 1⟩ →
      Scanned K (before ++ ws ++ lex) rest ts → Scanned K before (ws ++ lex ++ rest) (t :: ts)

/-- The concatenation, in order, of the lexemes of a list of tokens. -/
def lexemes : List Tok → String
  | [] => ""
  | t :: ts => t.lexeme ++ lexemes ts

/-- The loop of `lexInt` with the test `unicode.IsDigit(r)` replaced by `test r`, and nothing
else changed. -/
def lexIntLoopWith (test : Char → Bool) : Nat → Lexer → String → Except Err (String × Lexer)
  | 0, _, _ => .error .fuel
  | n + 1, l, number =>
    match ReadRune l.reader with
    | (none, rd) => .ok (number, { l with reader := rd })
    | (some r, rd) =>
      let l := advance l rd
      if test r then
        lexIntLoopWith test n l (number ++ String.singleton r)
      else
        match Backup l with
        | .error e => .error e
        | .ok l => .ok (number, l)

/-- `lexInt` with the digit test replaced by `test`. -/
def lexIntWith (test : Char → Bool) (l : Lexer) : Except Err (String × Lexer) :=
  lexIntLoopWith test (l.reader.buf.length + 1) l ""

/-- The lexicographic order on positions: by line, then by column. -/
def Position.lexLt (p q : Position) : Prop :=
  p.line < q.line ∨ (p.line = q.line ∧ p.column < q.column)

/-- The lexicographic order on positions, or equal. -/
def Position.lexLe (p q : Position) : Prop :=
  p.line < q.line ∨ (p.line = q.line ∧ p.column ≤ q.column)

/-! ## The record of reader operations

The same lexer with a journal beside it: every `ReadRune` and every `UnreadRune` that the lexer
performs is appended to the journal, with the offset in the input of the rune it delivered or
took back. The journal does not influence the lexer. -/

/-- A reader operation: the successful read of the rune at offset `i` of the input, a read that
met `io.EOF`, or the successful unread of the rune at offset `i`. -/
inductive Op where
  | read (i : Nat)
  | eof
  | unread (i : Nat)
deriving DecidableEq, Repr

/-- The journal: the offset of the next rune that the reader will deliver, and the operations
performed so far, oldest first. -/
structure Journal where
  off : Nat
  ops : List Op
deriving DecidableEq, Repr

/-- `ReadRune`, recorded. -/
def ReadRuneRec (rd : Reader) (j : Journal) : Option Char × Reader × Journal :=
  match ReadRune rd with
  | (none, rd) => (none, rd, { j with ops := j.ops ++ [.eof] })
  | (some r, rd) => (some r, rd, { off := j.off + 1, ops := j.ops ++ [.read j.off] })

/-- `Backup`, recorded: a successful `UnreadRune` takes back the rune before the offset. -/
def BackupRec (l : Lexer) (j : Journal) : Except Err (Lexer × Journal) :=
  match Backup l with
  | .error e => .error e
  | .ok l => .ok (l, { off := j.off - 1, ops := j.ops ++ [.unread (j.off - 1)] })

/-- The loop of `lexInt`, recorded. -/
def lexIntLoopRec (K : RangeTables) :
    Nat → Lexer → Journal → String → Except Err (String × Lexer × Journal)
  | 0, _, _, _ => .error .fuel
  | n + 1, l, j, number =>
    match ReadRuneRec l.reader j with
    | (none, rd, j) => .ok (number, { l with reader := rd }, j)
    | (some r, rd, j) =>
      let l := advance l rd
      if IsDigit K r then
        lexIntLoopRec K n l j (number ++ String.singleton r)
      else
        match BackupRec l j with
        | .error e => .error e
        | .ok (l, j) => .ok (number, l, j)

/-- `lexInt`, recorded. -/
def lexIntRec (K : RangeTables) (l : Lexer) (j : Journal) :
    Except Err (String × Lexer × Journal) :=
  lexIntLoopRec K (l.reader.buf.length + 1) l j ""

/-- The loop of `lexIdent`, recorded. -/
def lexIdentLoopRec (K : RangeTables) :
    Nat → Lexer → Journal → String → Except Err (String × Lexer × Journal)
  | 0, _, _, _ => .error .fuel
  | n + 1, l, j, ident =>
    match ReadRuneRec l.reader j with
    | (none, rd, j) => .ok (ident, { l with reader := rd }, j)
    | (some r, rd, j) =>
      let l := advance l rd
      if IsLetter K r then
        lexIdentLoopRec K n l j (ident ++ String.singleton r)
      else
        match BackupRec l j with
        | .error e => .error e
        | .ok (l, j) => .ok (lexIdentSwitch ident, l, j)

/-- `lexIdent`, recorded. -/
def lexIdentRec (K : RangeTables) (l : Lexer) (j : Journal) :
    Except Err (String × Lexer × Journal) :=
  lexIdentLoopRec K (l.reader.buf.length + 1) l j ""

/-- The loop of `Lex`, recorded. -/
def LexLoopRec (K : RangeTables) : Nat → Lexer → Journal → Except Err (Tok × Lexer × Journal)
  | 0, _, _ => .error .fuel
  | n + 1, l, j =>
    match ReadRuneRec l.reader j with
    | (none, rd, j) => .ok (⟨l.pos, EOF, ""⟩, { l with reader := rd }, j)
    | (some r, rd, j) =>
      let l := advance l rd
      if r = '\n' then LexLoopRec K n (resetPos l) j
      else if r = ';' then .ok (⟨l.pos, SEMICOLON, ";"⟩, l, j)
      else if r = '+' then .ok (⟨l.pos, ADD, "+"⟩, l, j)
      else if r = '-' then .ok (⟨l.pos, SUB, "-"⟩, l, j)
      else if r = '*' then .ok (⟨l.pos, MUL, "*"⟩, l, j)
      else if r = '/' then .ok (⟨l.pos, DIV, "/"⟩, l, j)
      else if r = '=' then .ok (⟨l.pos, ASSIGN, "="⟩, l, j)
      else if r = '(' then .ok (⟨l.pos, LPAREN, "("⟩, l, j)
      else if r = ')' then .ok (⟨l.pos, RPAREN, ")"⟩, l, j)
      else if r = '<' then .ok (⟨l.pos, LESSTHAN, "<"⟩, l, j)
      else if r = '>' then .ok (⟨l.pos, GREATERTHAN, ">"⟩, l, j)
      else if IsSpace K r then LexLoopRec K n l j
      else if IsDigit K r then
        let startPos := l.pos
        match BackupRec l j with
        | .error e => .error e
        | .ok (l, j) =>
          match lexIntRec K l j with
          | .error e => .error e
          | .ok (num, l, j) => .ok (⟨startPos, NUMBER, num⟩, l, j)
      else if IsLetter K r then
        let startPos := l.pos
        match BackupRec l j with
        | .error e => .error e
        | .ok (l, j) =>
          match lexIdentRec K l j with
          | .error e => .error e
          | .ok (ident, l, j) => .ok (⟨startPos, IDENT, ident⟩, l, j)
      else .ok (⟨l.pos, ILLEGAL, String.singleton r⟩, l, j)

/-- `Lex`, recorded. -/
def LexRec (K : RangeTables) (l : Lexer) (j : Journal) : Except Err (Tok × Lexer × Journal) :=
  LexLoopRec K (l.reader.buf.length + 1) l j

/-- The first `n` calls of `Lex`, recorded. -/
def LexTimesRec (K : RangeTables) :
    Nat → Lexer → Journal → Except Err (List Tok × Lexer × Journal)
  | 0, l, j => .ok ([], l, j)
  | n + 1, l, j =>
    match LexRec K l j with
    | .error e => .error e
    | .ok (t, l, j) =>
      match LexTimesRec K n l j with
      | .error e => .error e
      | .ok (ts, l, j) => .ok (t :: ts, l, j)

/-- The operations of a loop of `lexInt` or `lexIdent` with the test `test`, on the remaining
input `buf` that starts at offset `o`. -/
def runOps (test : Char → Bool) : Nat → List Char → List Op
  | _, [] => [.eof]
  | o, c :: cs => if test c then .read o :: runOps test (o + 1) cs else [.read o, .unread o]

/-- The operations of one call of `Lex` on the remaining input `buf` that starts at offset
`o`. -/
def lexOps (K : RangeTables) : Nat → List Char → List Op
  | _, [] => [.eof]
  | o, c :: cs =>
    if IsSpace K c then .read o :: lexOps K (o + 1) cs
    else if isPunct c then [.read o]
    else if IsDigit K c then .read o :: .unread o :: runOps (IsDigit K) o (c :: cs)
    else if IsLetter K c then .read o :: .unread o :: runOps (IsLetter K) o (c :: cs)
    else [.read o]

/-- The offset after one call of `Lex` on the remaining input `buf` that starts at offset
`o`. -/
def lexEnd (K : RangeTables) : Nat → List Char → Nat
  | o, [] => o
  | o, c :: cs =>
    if IsSpace K c then lexEnd K (o + 1) cs
    else if isPunct c then o + 1
    else if IsDigit K c then o + ((c :: cs).takeWhile (IsDigit K)).length
    else if IsLetter K c then o + ((c :: cs).takeWhile (IsLetter K)).length
    else o + 1

/-- Every unread in a list of operations comes right after the read of the same rune: it is not
the first operation, and it follows neither an `eof` nor another unread. -/
def Disciplined (ops : List Op) : Prop :=
  ∀ (k i : Nat), ops[k]? = some (.unread i) → ∃ k', k = k' + 1 ∧ ops[k']? = some (.read i)

/-! ## Facts about the classifiers -/

theorem IsSpace_newline (K : RangeTables) : IsSpace K '\n' = true := rfl

theorem digit_not_space (K : RangeTables) (r : Char) (h : IsDigit K r = true) :
    IsSpace K r = false := by
  unfold IsDigit at h
  unfold IsSpace
  split at h
  · rw [if_pos (by assumption)]
    simp only [decide_eq_true_eq] at h
    simp only [decide_eq_false_iff_not]
    omega
  · rw [if_neg (by assumption)]
    exact K.digit_not_space r h

theorem letter_not_space (K : RangeTables) (r : Char) (h : IsLetter K r = true) :
    IsSpace K r = false := by
  unfold IsLetter at h
  unfold IsSpace
  split at h
  · rw [if_pos (by assumption)]
    simp only [decide_eq_true_eq] at h
    simp only [decide_eq_false_iff_not]
    omega
  · rw [if_neg (by assumption)]
    exact K.letter_not_space r h

theorem letter_not_digit (K : RangeTables) (r : Char) (h : IsLetter K r = true) :
    IsDigit K r = false := by
  unfold IsLetter at h
  unfold IsDigit
  split at h
  · rw [if_pos (by assumption)]
    simp only [decide_eq_true_eq] at h
    simp only [decide_eq_false_iff_not]
    omega
  · rw [if_neg (by assumption)]
    exact K.letter_not_digit r h

theorem LexLoop_punct (K : RangeTables) (m : Nat) (pos : Position) (c : Char) (k : Token)
    (rest : List Char) (lst : Option Char) (h : (c, k) ∈ punctuation) :
    LexLoop K (m + 1) ⟨pos, ⟨c :: rest, lst⟩⟩
      = .ok (⟨⟨pos.line, pos.column + 1⟩, k, String.singleton c⟩,
             ⟨⟨pos.line, pos.column + 1⟩, ⟨rest, some c⟩⟩) := by
  simp only [punctuation, List.mem_cons, Prod.mk.injEq, List.mem_singleton, List.not_mem_nil,
    or_false] at h
  rcases h with h | h | h | h | h | h | h | h | h | h <;> (obtain ⟨rfl, rfl⟩ := h; rfl)

theorem Lex_punct (K : RangeTables) (pos : Position) (c : Char) (k : Token) (rest : List Char)
    (lst : Option Char) (h : (c, k) ∈ punctuation) :
    Lex K ⟨pos, ⟨c :: rest, lst⟩⟩
      = .ok (⟨⟨pos.line, pos.column + 1⟩, k, String.singleton c⟩,
             ⟨⟨pos.line, pos.column + 1⟩, ⟨rest, some c⟩⟩) :=
  LexLoop_punct K (rest.length + 1) pos c k rest lst h

theorem isPunct_space (K : RangeTables) (c : Char) (h : isPunct c = true) : IsSpace K c = false := by
  simp only [isPunct, punctuation, List.map, List.contains_cons, List.contains_nil, Bool.or_false, Bool.or_eq_true, beq_iff_eq] at h
  rcases h with h | h | h | h | h | h | h | h | h | h <;> (subst h; rfl)


theorem append_mk_cons (acc : String) (c : Char) (cs : List Char) :
    (acc ++ String.singleton c) ++ String.mk cs = acc ++ String.mk (c :: cs) := by
  apply String.ext
  simp [String.data_append, String.singleton]

theorem lexIntLoop_eq (K : RangeTables) : ∀ (buf : List Char) (n : Nat) (pos : Position)
    (lst : Option Char) (acc : String), buf.length < n →
    lexIntLoop K n ⟨pos, ⟨buf, lst⟩⟩ acc
      = .ok (acc ++ String.mk (buf.takeWhile (IsDigit K)),
          ⟨⟨pos.line, pos.column + (buf.takeWhile (IsDigit K)).length⟩,
           ⟨buf.dropWhile (IsDigit K), none⟩⟩) := by
  intro buf
  induction buf with
  | nil =>
    intro n pos lst acc hn
    obtain ⟨m, rfl⟩ : ∃ m, n = m + 1 := ⟨n - 1, by simp at hn; omega⟩
    have : acc ++ String.mk [] = acc := by apply String.ext; simp [String.data_append]
    simp [lexIntLoop, ReadRune, this]
  | cons c cs ih =>
    intro n pos lst acc hn
    obtain ⟨m, rfl⟩ : ∃ m, n = m + 1 := ⟨n - 1, by simp at hn; omega⟩
    have hm : cs.length < m := by simp at hn; omega
    by_cases hc : IsDigit K c = true
    · simp only [lexIntLoop, ReadRune, advance, hc, if_true, List.takeWhile_cons_of_pos,
        List.dropWhile_cons_of_pos]
      rw [ih m _ _ _ hm, append_mk_cons]
      simp only [List.length_cons, Nat.cast_add, Nat.cast_one]
      congr 4
      omega
    · have hc' : IsDigit K c = false := by simpa using hc
      have : acc ++ String.mk [] = acc := by apply String.ext; simp [String.data_append]
      simp [lexIntLoop, ReadRune, advance, hc', Backup, UnreadRune, this]

theorem lexInt_eq (K : RangeTables) (pos : Position) (buf : List Char) (lst : Option Char) :
    lexInt K ⟨pos, ⟨buf, lst⟩⟩
      = .ok (String.mk (buf.takeWhile (IsDigit K)),
          ⟨⟨pos.line, pos.column + (buf.takeWhile (IsDigit K)).length⟩,
           ⟨buf.dropWhile (IsDigit K), none⟩⟩) := by
  unfold lexInt
  rw [lexIntLoop_eq K buf _ pos lst "" (Nat.lt_succ_self _)]
  congr 2


theorem lexIdentSwitch_eq (ident : String) : lexIdentSwitch ident = ident := by
  unfold lexIdentSwitch
  split <;> rfl

theorem lexIdentLoop_eq (K : RangeTables) : ∀ (buf : List Char) (n : Nat) (pos : Position)
    (lst : Option Char) (acc : String), buf.length < n →
    lexIdentLoop K n ⟨pos, ⟨buf, lst⟩⟩ acc
      = .ok (acc ++ String.mk (buf.takeWhile (IsLetter K)),
          ⟨⟨pos.line, pos.column + (buf.takeWhile (IsLetter K)).length⟩,
           ⟨buf.dropWhile (IsLetter K), none⟩⟩) := by
  intro buf
  induction buf with
  | nil =>
    intro n pos lst acc hn
    obtain ⟨m, rfl⟩ : ∃ m, n = m + 1 := ⟨n - 1, by simp at hn; omega⟩
    have : acc ++ String.mk [] = acc := by apply String.ext; simp [String.data_append]
    simp [lexIdentLoop, ReadRune, this]
  | cons c cs ih =>
    intro n pos lst acc hn
    obtain ⟨m, rfl⟩ : ∃ m, n = m + 1 := ⟨n - 1, by simp at hn; omega⟩
    have hm : cs.length < m := by simp at hn; omega
    by_cases hc : IsLetter K c = true
    · simp only [lexIdentLoop, ReadRune, advance, hc, if_true, List.takeWhile_cons_of_pos,
        List.dropWhile_cons_of_pos]
      rw [ih m _ _ _ hm, append_mk_cons]
      simp only [List.length_cons, Nat.cast_add, Nat.cast_one]
      congr 4
      omega
    · have hc' : IsLetter K c = false := by simpa using hc
      have : acc ++ String.mk [] = acc := by apply String.ext; simp [String.data_append]
      simp [lexIdentLoop, ReadRune, advance, hc', Backup, UnreadRune, this, lexIdentSwitch_eq]

theorem lexIdent_eq (K : RangeTables) (pos : Position) (buf : List Char) (lst : Option Char) :
    lexIdent K ⟨pos, ⟨buf, lst⟩⟩
      = .ok (String.mk (buf.takeWhile (IsLetter K)),
          ⟨⟨pos.line, pos.column + (buf.takeWhile (IsLetter K)).length⟩,
           ⟨buf.dropWhile (IsLetter K), none⟩⟩) := by
  unfold lexIdent
  rw [lexIdentLoop_eq K buf _ pos lst "" (Nat.lt_succ_self _)]
  congr 2

theorem LexLoop_nil (K : RangeTables) (m : Nat) (pos : Position) (lst : Option Char) :
    LexLoop K (m + 1) ⟨pos, ⟨[], lst⟩⟩ = .ok (⟨pos, EOF, ""⟩, ⟨pos, ⟨[], none⟩⟩) := rfl

theorem Lex_nil (K : RangeTables) (pos : Position) (lst : Option Char) :
    Lex K ⟨pos, ⟨[], lst⟩⟩ = .ok (⟨pos, EOF, ""⟩, ⟨pos, ⟨[], none⟩⟩) := rfl

/-- The result of the loop of `Lex` does not depend on the unread slot. -/
theorem LexLoop_last (K : RangeTables) (n : Nat) (pos : Position) (buf : List Char)
    (lst : Option Char) : LexLoop K n ⟨pos, ⟨buf, lst⟩⟩ = LexLoop K n ⟨pos, ⟨buf, none⟩⟩ := by
  cases n with
  | zero => rfl
  | succ m => cases buf <;> rfl

/-- A turn of the loop of `Lex` on a space rune, newline included: the rune is consumed and the
loop goes on. -/
theorem LexLoop_space (K : RangeTables) (m : Nat) (pos : Position) (w : Char)
    (rest : List Char) (lst : Option Char) (h : IsSpace K w = true) :
    LexLoop K (m + 1) ⟨pos, ⟨w :: rest, lst⟩⟩ = LexLoop K m ⟨stepPos pos w, ⟨rest, none⟩⟩ := by
  by_cases hn : w = '\n'
  · subst hn
    show LexLoop K m _ = LexLoop K m _
    exact LexLoop_last K _ _ _ _
  · have hp : isPunct w = false := by
      cases hq : isPunct w
      · rfl
      · rw [isPunct_space K w hq] at h; cases h
    simp only [isPunct, punctuation, List.map, List.contains_cons, List.contains_nil,
      Bool.or_false, Bool.or_eq_false_iff, beq_eq_false_iff_ne, ne_eq] at hp
    obtain ⟨h1, h2, h3, h4, h5, h6, h7, h8, h9, h10⟩ := hp
    simp only [LexLoop, ReadRune, advance, hn, if_false, h1, h2, h3, h4,
      h5, h6, h7, h8, h9, h10, h, if_true, stepPos]
    exact LexLoop_last K _ _ _ _

theorem Lex_space (K : RangeTables) (pos : Position) (w : Char) (rest : List Char)
    (lst : Option Char) (h : IsSpace K w = true) :
    Lex K ⟨pos, ⟨w :: rest, lst⟩⟩ = Lex K ⟨stepPos pos w, ⟨rest, none⟩⟩ :=
  LexLoop_space K (rest.length + 1) pos w rest lst h

/-- A turn of the loop of `Lex` on a rune that reaches the `default` case and is no space. -/
theorem LexLoop_default (K : RangeTables) (m : Nat) (pos : Position) (c : Char)
    (rest : List Char) (lst : Option Char) (hn : c ≠ '\n') (hp : isPunct c = false)
    (hs : IsSpace K c = false) :
    LexLoop K (m + 1) ⟨pos, ⟨c :: rest, lst⟩⟩ =
      if IsDigit K c then
        .ok (⟨⟨pos.line, pos.column + 1⟩, NUMBER, String.mk ((c :: rest).takeWhile (IsDigit K))⟩,
          ⟨⟨pos.line, pos.column + ((c :: rest).takeWhile (IsDigit K)).length⟩,
           ⟨(c :: rest).dropWhile (IsDigit K), none⟩⟩)
      else if IsLetter K c then
        .ok (⟨⟨pos.line, pos.column + 1⟩, IDENT, String.mk ((c :: rest).takeWhile (IsLetter K))⟩,
          ⟨⟨pos.line, pos.column + ((c :: rest).takeWhile (IsLetter K)).length⟩,
           ⟨(c :: rest).dropWhile (IsLetter K), none⟩⟩)
      else
        .ok (⟨⟨pos.line, pos.column + 1⟩, ILLEGAL, String.singleton c⟩,
          ⟨⟨pos.line, pos.column + 1⟩, ⟨rest, some c⟩⟩) := by
  simp only [isPunct, punctuation, List.map, List.contains_cons, List.contains_nil,
    Bool.or_false, Bool.or_eq_false_iff, beq_eq_false_iff_ne, ne_eq] at hp
  obtain ⟨h1, h2, h3, h4, h5, h6, h7, h8, h9, h10⟩ := hp
  simp only [LexLoop, ReadRune, advance, hn, if_false, h1, h2, h3, h4,
    h5, h6, h7, h8, h9, h10, hs, Backup, UnreadRune]
  have e : pos.column + 1 - 1 = pos.column := by omega
  rw [e, lexInt_eq, lexIdent_eq]
  simp only [Bool.false_eq_true, if_false]

theorem Lex_default (K : RangeTables) (pos : Position) (c : Char) (rest : List Char)
    (lst : Option Char) (hn : c ≠ '\n') (hp : isPunct c = false) (hs : IsSpace K c = false) :
    Lex K ⟨pos, ⟨c :: rest, lst⟩⟩ =
      if IsDigit K c then
        .ok (⟨⟨pos.line, pos.column + 1⟩, NUMBER, String.mk ((c :: rest).takeWhile (IsDigit K))⟩,
          ⟨⟨pos.line, pos.column + ((c :: rest).takeWhile (IsDigit K)).length⟩,
           ⟨(c :: rest).dropWhile (IsDigit K), none⟩⟩)
      else if IsLetter K c then
        .ok (⟨⟨pos.line, pos.column + 1⟩, IDENT, String.mk ((c :: rest).takeWhile (IsLetter K))⟩,
          ⟨⟨pos.line, pos.column + ((c :: rest).takeWhile (IsLetter K)).length⟩,
           ⟨(c :: rest).dropWhile (IsLetter K), none⟩⟩)
      else
        .ok (⟨⟨pos.line, pos.column + 1⟩, ILLEGAL, String.singleton c⟩,
          ⟨⟨pos.line, pos.column + 1⟩, ⟨rest, some c⟩⟩) :=
  LexLoop_default K (rest.length + 1) pos c rest lst hn hp hs

theorem isPunct_digit (K : RangeTables) (c : Char) (h : isPunct c = true) :
    IsDigit K c = false := by
  simp only [isPunct, punctuation, List.map, List.contains_cons, List.contains_nil,
    Bool.or_false, Bool.or_eq_true, beq_iff_eq] at h
  rcases h with h | h | h | h | h | h | h | h | h | h <;> (subst h; rfl)

theorem isPunct_letter (K : RangeTables) (c : Char) (h : isPunct c = true) :
    IsLetter K c = false := by
  simp only [isPunct, punctuation, List.map, List.contains_cons, List.contains_nil,
    Bool.or_false, Bool.or_eq_true, beq_iff_eq] at h
  rcases h with h | h | h | h | h | h | h | h | h | h <;> (subst h; rfl)

theorem IsDigit_newline (K : RangeTables) : IsDigit K '\n' = false := rfl

theorem IsLetter_newline (K : RangeTables) : IsLetter K '\n' = false := rfl

theorem takeWhile_run {p : Char → Bool} (d rest : List Char) (hd : ∀ c ∈ d, p c = true)
    (hrest : ∀ x ∈ rest.head?, p x = false) : (d ++ rest).takeWhile p = d := by
  rw [List.takeWhile_append_of_pos hd]
  cases rest with
  | nil => simp
  | cons x xs =>
    have := hrest x (by simp)
    simp [List.takeWhile_cons, this]

theorem dropWhile_run {p : Char → Bool} (d rest : List Char) (hd : ∀ c ∈ d, p c = true)
    (hrest : ∀ x ∈ rest.head?, p x = false) : (d ++ rest).dropWhile p = rest := by
  rw [List.dropWhile_append_of_pos hd]
  cases rest with
  | nil => simp
  | cons x xs =>
    have := hrest x (by simp)
    simp [List.dropWhile_cons, this]

theorem isPunct_kind (c : Char) (h : isPunct c = true) :
    ∃ k, (c, k) ∈ punctuation ∧ k ≠ EOF := by
  simp only [isPunct, punctuation, List.map, List.contains_cons, List.contains_nil,
    Bool.or_false, Bool.or_eq_true, beq_iff_eq] at h
  rcases h with h | h | h | h | h | h | h | h | h | h <;> subst h
  · exact ⟨SEMICOLON, by decide, by decide⟩
  · exact ⟨ADD, by decide, by decide⟩
  · exact ⟨SUB, by decide, by decide⟩
  · exact ⟨MUL, by decide, by decide⟩
  · exact ⟨DIV, by decide, by decide⟩
  · exact ⟨ASSIGN, by decide, by decide⟩
  · exact ⟨LPAREN, by decide, by decide⟩
  · exact ⟨RPAREN, by decide, by decide⟩
  · exact ⟨LESSTHAN, by decide, by decide⟩
  · exact ⟨GREATERTHAN, by decide, by decide⟩

theorem takeWhile_cons_ne_nil {p : Char → Bool} (c : Char) (cs : List Char) (h : p c = true) :
    (c :: cs).takeWhile p ≠ [] := by
  simp [List.takeWhile_cons, h]

/-- A turn of the loop of `Lex` on a rune that is no space returns a token other than `EOF`,
whatever the budget. -/
theorem LexLoop_token (K : RangeTables) (m : Nat) (pos : Position) (c : Char) (cs : List Char)
    (lst : Option Char) (hs : IsSpace K c = false) :
    ∃ t l' lex, LexLoop K (m + 1) ⟨pos, ⟨c :: cs, lst⟩⟩ = .ok (t, l')
      ∧ Lex K ⟨pos, ⟨c :: cs, lst⟩⟩ = .ok (t, l')
      ∧ c :: cs = lex ++ l'.reader.buf ∧ lex ≠ [] ∧ (∀ x ∈ lex, IsSpace K x = false)
      ∧ t.lexeme = String.mk lex ∧ t.kind ≠ EOF
      ∧ t.pos = ⟨pos.line, pos.column + 1⟩ ∧ l'.pos = ⟨pos.line, pos.column + lex.length⟩ := by
  have hn : c ≠ '\n' := by
    rintro rfl
    rw [IsSpace_newline] at hs
    cases hs
  cases hp : isPunct c
  · have e1 := LexLoop_default K m pos c cs lst hn hp hs
    have e2 := Lex_default K pos c cs lst hn hp hs
    by_cases hd : IsDigit K c = true
    · rw [if_pos hd] at e1 e2
      refine ⟨_, _, (c :: cs).takeWhile (IsDigit K), e1, e2, ?_, ?_, ?_, rfl,
        (by decide : NUMBER ≠ EOF), rfl, rfl⟩
      · exact (List.takeWhile_append_dropWhile _ _).symm
      · exact takeWhile_cons_ne_nil c cs hd
      · intro x hx
        exact digit_not_space K x (List.mem_takeWhile_imp hx)
    · rw [if_neg hd] at e1 e2
      by_cases hl : IsLetter K c = true
      · rw [if_pos hl] at e1 e2
        refine ⟨_, _, (c :: cs).takeWhile (IsLetter K), e1, e2, ?_, ?_, ?_, rfl,
          (by decide : IDENT ≠ EOF), rfl, rfl⟩
        · exact (List.takeWhile_append_dropWhile _ _).symm
        · exact takeWhile_cons_ne_nil c cs hl
        · intro x hx
          exact letter_not_space K x (List.mem_takeWhile_imp hx)
      · rw [if_neg hl] at e1 e2
        refine ⟨_, _, [c], e1, e2, rfl, by simp, ?_, rfl, (by decide : ILLEGAL ≠ EOF), rfl, ?_⟩
        · intro x hx
          rw [List.mem_singleton] at hx
          rw [hx]
          exact hs
        · simp
  · obtain ⟨k, hk, hk0⟩ := isPunct_kind c hp
    refine ⟨_, _, [c], LexLoop_punct K m pos c k cs lst hk, Lex_punct K pos c k cs lst hk, rfl,
      by simp, ?_, rfl, hk0, rfl, ?_⟩
    · intro x hx
      rw [List.mem_singleton] at hx
      rw [hx]
      exact hs
    · simp

/-- The loop of `Lex` returns the same result with every budget above the number of remaining
runes: the budget that `Lex` passes is enough. -/
theorem LexLoop_fuel (K : RangeTables) : ∀ (buf : List Char) (n : Nat) (pos : Position)
    (lst : Option Char), buf.length < n →
    LexLoop K n ⟨pos, ⟨buf, lst⟩⟩ = Lex K ⟨pos, ⟨buf, lst⟩⟩ := by
  intro buf
  induction buf with
  | nil =>
    intro n pos lst hn
    obtain ⟨m, rfl⟩ : ∃ m, n = m + 1 := ⟨n - 1, by simp at hn; omega⟩
    rfl
  | cons c cs ih =>
    intro n pos lst hn
    obtain ⟨m, rfl⟩ : ∃ m, n = m + 1 := ⟨n - 1, by simp at hn; omega⟩
    have hm : cs.length < m := by simp at hn; omega
    cases hs : IsSpace K c
    · obtain ⟨t, l', lex, h1, h2, _⟩ := LexLoop_token K m pos c cs lst hs
      rw [h1, h2]
    · rw [LexLoop_space K m pos c cs lst hs, Lex_space K pos c cs lst hs]
      exact ih m _ _ hm

/-- Every call of `Lex` returns a token, and `LexStep` describes what it consumed. -/
theorem Lex_step (K : RangeTables) : ∀ (buf : List Char) (pos : Position) (lst : Option Char),
    ∃ t l' ws lex, Lex K ⟨pos, ⟨buf, lst⟩⟩ = .ok (t, l')
      ∧ LexStep K ⟨pos, ⟨buf, lst⟩⟩ t l' ws lex := by
  intro buf
  induction buf with
  | nil =>
    intro pos lst
    exact ⟨_, _, [], [], Lex_nil K pos lst,
      ⟨rfl, by simp, by simp, rfl, by simp, fun _ => rfl, by simp, by simp⟩⟩
  | cons c cs ih =>
    intro pos lst
    cases hs : IsSpace K c
    · obtain ⟨t, l', lex, _, h2, h3, h4, h5, h6, h7, h8, h9⟩ := LexLoop_token K 0 pos c cs lst hs
      refine ⟨t, l', [], lex, h2, ⟨by simpa using h3, by simp, h5, h6, ?_, ?_, ?_, by simpa using h9⟩⟩
      · exact ⟨fun h => absurd h h7, fun h => absurd h h4⟩
      · intro h
        exact absurd h h4
      · cases lex with
        | nil => exact absurd rfl h4
        | cons x xs => simpa using h8
    · obtain ⟨t, l', ws, lex, h, hstep⟩ := ih (stepPos pos c) none
      refine ⟨t, l', c :: ws, lex, ?_, ⟨?_, ?_, hstep.solid, hstep.lexeme, hstep.eof_iff,
        hstep.at_end, ?_, ?_⟩⟩
      · rw [Lex_space K pos c cs lst hs]
        exact h
      · have := hstep.split
        simp only at this
        simp [this]
      · intro w hw
        rcases List.mem_cons.1 hw with rfl | hw
        · exact hs
        · exact hstep.spaces w hw
      · simpa using hstep.tok_pos
      · simpa using hstep.end_pos

/-! ## Positions -/

theorem posOf_nil : posOf [] = ⟨1, 0⟩ := rfl

theorem posOf_snoc (xs : List Char) (c : Char) : posOf (xs ++ [c]) = stepPos (posOf xs) c := by
  unfold posOf stepPos
  by_cases h : c = '\n'
  · subst h
    simp [List.count_append]
    omega
  · have h' : ('\n' == c) = false := by
      simpa using fun e => h e.symm
    simp [List.count_append, List.takeWhile_cons, h, List.count_singleton, h']

theorem foldl_stepPos_posOf : ∀ (ws xs : List Char),
    ws.foldl stepPos (posOf xs) = posOf (xs ++ ws) := by
  intro ws
  induction ws with
  | nil => intro xs; simp
  | cons w ws ih =>
    intro xs
    rw [List.foldl_cons, ← posOf_snoc, ih]
    simp

theorem foldl_stepPos_solid : ∀ (lex : List Char) (p : Position), (∀ x ∈ lex, x ≠ '\n') →
    lex.foldl stepPos p = ⟨p.line, p.column + lex.length⟩ := by
  intro lex
  induction lex with
  | nil => intro p _; simp
  | cons x xs ih =>
    intro p h
    have hx : x ≠ '\n' := h x (by simp)
    rw [List.foldl_cons, ih _ (fun y hy => h y (by simp [hy]))]
    simp only [stepPos, hx, if_false, List.length_cons, Nat.cast_add, Nat.cast_one]
    congr 1
    omega

theorem ne_newline_of_not_space (K : RangeTables) (x : Char) (h : IsSpace K x = false) :
    x ≠ '\n' := by
  rintro rfl
  rw [IsSpace_newline] at h
  cases h

theorem posOf_solid (K : RangeTables) (xs lex : List Char) (h : ∀ x ∈ lex, IsSpace K x = false) :
    posOf (xs ++ lex) = ⟨(posOf xs).line, (posOf xs).column + lex.length⟩ := by
  rw [← foldl_stepPos_posOf]
  exact foldl_stepPos_solid lex _ fun x hx => ne_newline_of_not_space K x (h x hx)

/-! ## The loop of `main` -/

theorem Lexer_eta (l : Lexer) : l = ⟨l.pos, ⟨l.reader.buf, l.reader.last⟩⟩ := rfl

/-- The loop of `main` returns, with every budget above the number of remaining runes, and the
tokens it collects cover the input as `Scanned` says. -/
theorem mainLoop_scanned (K : RangeTables) : ∀ (n : Nat) (before buf : List Char)
    (lst : Option Char), buf.length < n →
    ∃ toks, mainLoop K n ⟨posOf before, ⟨buf, lst⟩⟩
        = .ok (toks, ⟨posOf (before ++ buf), ⟨[], none⟩⟩)
      ∧ Scanned K before buf toks := by
  intro n
  induction n with
  | zero => intro _ buf _ h; exact absurd h (Nat.not_lt_zero _)
  | succ n ih =>
    intro before buf lst hn
    obtain ⟨t, l', ws, lex, h, hs⟩ := Lex_step K buf (posOf before) lst
    have hsplit : buf = ws ++ lex ++ l'.reader.buf := hs.split
    have hend : l'.pos = posOf (before ++ ws ++ lex) := by
      rw [hs.end_pos, posOf_solid K _ lex hs.solid]
      simp only [foldl_stepPos_posOf]
    by_cases hl : lex = []
    · have hk : t.kind = EOF := hs.eof_iff.2 hl
      have hr := hs.at_end hl
      subst hl
      have hb : buf = ws := by rw [hsplit, hr]; simp
      refine ⟨[], ?_, ?_⟩
      · simp only [mainLoop, h, hk, if_true]
        rw [Lexer_eta l', hend, hr, hb]
        simp
      · rw [hb]
        exact Scanned.done before ws hs.spaces
    · have hk : t.kind ≠ EOF := fun e => hl (hs.eof_iff.1 e)
      have hlen : l'.reader.buf.length < n := by
        have h1 : buf.length = ws.length + lex.length + l'.reader.buf.length := by
          rw [hsplit]; simp only [List.length_append]
        have h2 : 0 < lex.length := List.length_pos.2 hl
        omega
      obtain ⟨ts, hts, hsc⟩ := ih (before ++ ws ++ lex) l'.reader.buf l'.reader.last hlen
      rw [← hend, ← Lexer_eta] at hts
      refine ⟨t :: ts, ?_, ?_⟩
      · simp only [mainLoop, h, hk, if_false, hts]
        rw [hsplit]
        simp [List.append_assoc]
      · rw [hsplit]
        refine Scanned.token before ws lex _ t ts hs.spaces hl hs.solid hs.lexeme hk ?_ hsc
        rw [hs.tok_pos]
        cases lex with
        | nil => exact absurd rfl hl
        | cons x xs => simp [foldl_stepPos_posOf]

/-- The loop of `main` returns the same result with every budget above the number of
remaining runes. -/
theorem mainLoop_fuel (K : RangeTables) : ∀ (n₁ n₂ : Nat) (l : Lexer),
    l.reader.buf.length < n₁ → l.reader.buf.length < n₂ → mainLoop K n₁ l = mainLoop K n₂ l := by
  intro n₁
  induction n₁ with
  | zero => intro _ l h; exact absurd h (Nat.not_lt_zero _)
  | succ m₁ ih =>
    intro n₂ l h₁ h₂
    obtain ⟨m₂, rfl⟩ : ∃ m, n₂ = m + 1 := ⟨n₂ - 1, by omega⟩
    obtain ⟨t, l', ws, lex, h, hs⟩ := Lex_step K l.reader.buf l.pos l.reader.last
    rw [← Lexer_eta] at h hs
    by_cases hk : t.kind = EOF
    · simp only [mainLoop, h, hk, if_true]
    · have hl : lex ≠ [] := fun e => hk (hs.eof_iff.2 e)
      have hlen : l.reader.buf.length = ws.length + lex.length + l'.reader.buf.length := by
        rw [hs.split]; simp only [List.length_append]
      have hpos : 0 < lex.length := List.length_pos.2 hl
      simp only [mainLoop, h, hk, if_false]
      rw [ih m₂ l' (by omega) (by omega)]

theorem Scanned_length (K : RangeTables) (before buf : List Char) (toks : List Tok)
    (h : Scanned K before buf toks) : toks.length ≤ buf.length := by
  induction h with
  | done before ws _ => simp
  | token before ws lex rest t ts _ hl _ _ _ _ _ ih =>
    have hpos : 0 < lex.length := List.length_pos.2 hl
    simp only [List.length_cons, List.length_append]
    omega

theorem filter_solid (K : RangeTables) (ws lex rest : List Char)
    (hws : ∀ w ∈ ws, IsSpace K w = true) (hlex : ∀ x ∈ lex, IsSpace K x = false) :
    (ws ++ lex ++ rest).filter (fun r => !IsSpace K r)
      = lex ++ rest.filter (fun r => !IsSpace K r) := by
  have h1 : ws.filter (fun r => !IsSpace K r) = [] := by
    rw [List.filter_eq_nil_iff]
    intro w hw
    simp [hws w hw]
  have h2 : lex.filter (fun r => !IsSpace K r) = lex := by
    rw [List.filter_eq_self]
    intro x hx
    simp [hlex x hx]
  rw [List.filter_append, List.filter_append, h1, h2, List.nil_append]

theorem Scanned_lexemes (K : RangeTables) (before buf : List Char) (toks : List Tok)
    (h : Scanned K before buf toks) :
    (lexemes toks).data = buf.filter (fun r => !IsSpace K r) := by
  induction h with
  | done before ws hws =>
    have : ws.filter (fun r => !IsSpace K r) = [] := by
      rw [List.filter_eq_nil_iff]
      intro w hw
      simp [hws w hw]
    rw [this]
    rfl
  | token before ws lex rest t ts hws _ hlex hlx _ _ _ ih =>
    rw [filter_solid K ws lex rest hws hlex, ← ih]
    simp [lexemes, String.data_append, hlx]

theorem Scanned_get (K : RangeTables) (b₀ buf : List Char) (toks : List Tok)
    (h : Scanned K b₀ buf toks) : ∀ (i : Nat) (t : Tok), toks[i]? = some t →
    ∃ before after, buf = before ++ t.lexeme.data ++ after
      ∧ before.filter (fun r => !IsSpace K r) = (lexemes (toks.take i)).data
      ∧ t.lexeme.data ≠ [] ∧ (∀ x ∈ t.lexeme.data, IsSpace K x = false)
      ∧ t.kind ≠ EOF
      ∧ t.pos = ⟨(posOf (b₀ ++ before)).line, (posOf (b₀ ++ before)).column + 1⟩ := by
  induction h with
  | done before ws _ => intro i t hi; simp at hi
  | token b₀ ws lex rest t ts hws hl hlex hlx hk hpos _ ih =>
    intro i u hi
    cases i with
    | zero =>
      simp only [List.getElem?_cons_zero, Option.some.injEq] at hi
      subst hi
      refine ⟨ws, rest, by rw [hlx], ?_, by rw [hlx]; exact hl, by rw [hlx]; exact hlex, hk, hpos⟩
      rw [List.filter_eq_nil_iff.2 (fun w hw => by simp [hws w hw])]
      rfl
    | succ j =>
      simp only [List.getElem?_cons_succ] at hi
      obtain ⟨before, after, h1, h2, h3, h4, h5, h6⟩ := ih j u hi
      refine ⟨ws ++ lex ++ before, after, ?_, ?_, h3, h4, h5, ?_⟩
      · rw [h1]; simp [List.append_assoc]
      · rw [filter_solid K ws lex before hws hlex, h2]
        simp [lexemes, String.data_append, hlx]
      · rw [h6]; simp [List.append_assoc]

/-- On an input of space runes only, `Lex` consumes them all and returns `EOF`. -/
theorem Lex_spaces (K : RangeTables) : ∀ (ws : List Char) (pos : Position) (lst : Option Char),
    (∀ w ∈ ws, IsSpace K w = true) →
    Lex K ⟨pos, ⟨ws, lst⟩⟩
      = .ok (⟨ws.foldl stepPos pos, EOF, ""⟩, ⟨ws.foldl stepPos pos, ⟨[], none⟩⟩) := by
  intro ws
  induction ws with
  | nil => intro pos lst _; exact Lex_nil K pos lst
  | cons w ws ih =>
    intro pos lst h
    rw [Lex_space K pos w ws lst (h w (by simp)), ih _ _ (fun x hx => h x (by simp [hx]))]
    rfl

/-! ## The claims -/

/-- C1: when the remaining input is a non-empty run `d` of digits followed by `rest`, which is
empty or starts with a rune that is no digit, one call of `Lex` returns `NUMBER` with the lexeme
`d` (at the position of the first digit) and leaves exactly `rest` unread; and on the input
`1<2>3` six calls return `NUMBER 1`, `LESSTHAN <`, `NUMBER 2`, `GREATERTHAN >`, `NUMBER 3`,
`EOF`. -/
theorem Lex_digit_run (K : RangeTables) (l : Lexer) (d rest : List Char)
    (hbuf : l.reader.buf = d ++ rest) (hne : d ≠ [])
    (hd : ∀ c ∈ d, IsDigit K c = true) (hrest : ∀ x ∈ rest.head?, IsDigit K x = false) :
    Lex K l = .ok (⟨⟨l.pos.line, l.pos.column + 1⟩, NUMBER, String.mk d⟩,
        ⟨⟨l.pos.line, l.pos.column + d.length⟩, ⟨rest, none⟩⟩)
    ∧ (LexTimes K 6 (NewLexer "1<2>3".toList)).map Prod.fst
        = .ok [⟨⟨1, 1⟩, NUMBER, "1"⟩, ⟨⟨1, 2⟩, LESSTHAN, "<"⟩, ⟨⟨1, 3⟩, NUMBER, "2"⟩,
            ⟨⟨1, 4⟩, GREATERTHAN, ">"⟩, ⟨⟨1, 5⟩, NUMBER, "3"⟩, ⟨⟨1, 5⟩, EOF, ""⟩] := by
  refine ⟨?_, rfl⟩
  obtain ⟨pos, buf, lst⟩ := l
  simp only at hbuf
  subst hbuf
  cases d with
  | nil => exact absurd rfl hne
  | cons c cs =>
    have hc : IsDigit K c = true := hd c (by simp)
    have hn : c ≠ '\n' := by
      rintro rfl
      rw [IsDigit_newline] at hc
      cases hc
    have hp : isPunct c = false := by
      cases hq : isPunct c
      · rfl
      · rw [isPunct_digit K c hq] at hc; cases hc
    have h := Lex_default K pos c (cs ++ rest) lst hn hp (digit_not_space K c hc)
    rw [if_pos hc] at h
    have e : c :: (cs ++ rest) = (c :: cs) ++ rest := rfl
    rw [e, takeWhile_run _ _ hd hrest, dropWhile_run _ _ hd hrest] at h
    exact h

theorem Lex_digit_run_witness :
    (⟨⟨3, 7⟩, ⟨"42+1".toList, some 'x'⟩⟩ : Lexer).reader.buf = "42".toList ++ "+1".toList
    ∧ "42".toList ≠ []
    ∧ (∀ c ∈ "42".toList, IsDigit sampleTables c = true)
    ∧ (∀ x ∈ "+1".toList.head?, IsDigit sampleTables x = false)
    ∧ Lex sampleTables ⟨⟨3, 7⟩, ⟨"42+1".toList, some 'x'⟩⟩
        = .ok (⟨⟨3, 8⟩, NUMBER, "42"⟩, ⟨⟨3, 9⟩, ⟨"+1".toList, none⟩⟩) :=
  ⟨rfl, by decide, by decide, by decide,
    (Lex_digit_run sampleTables ⟨⟨3, 7⟩, ⟨"42+1".toList, some 'x'⟩⟩ "42".toList "+1".toList rfl
      (by decide) (by decide) (by decide)).1⟩


/-- C2: when the remaining input is a non-empty run `w` of letters followed by `rest`, which is
empty or starts with a rune that is no letter, one call of `Lex` returns `IDENT` with the lexeme
`w` and leaves exactly `rest` unread; the kind is `IDENT`, which is not `DEFINE`, for every such
`w`, the word `define` included. -/
theorem Lex_letter_run (K : RangeTables) (l : Lexer) (w rest : List Char)
    (hbuf : l.reader.buf = w ++ rest) (hne : w ≠ [])
    (hw : ∀ c ∈ w, IsLetter K c = true) (hrest : ∀ x ∈ rest.head?, IsLetter K x = false) :
    Lex K l = .ok (⟨⟨l.pos.line, l.pos.column + 1⟩, IDENT, String.mk w⟩,
        ⟨⟨l.pos.line, l.pos.column + w.length⟩, ⟨rest, none⟩⟩)
    ∧ IDENT ≠ DEFINE := by
  refine ⟨?_, by decide⟩
  obtain ⟨pos, buf, lst⟩ := l
  simp only at hbuf
  subst hbuf
  cases w with
  | nil => exact absurd rfl hne
  | cons c cs =>
    have hc : IsLetter K c = true := hw c (by simp)
    have hn : c ≠ '\n' := by
      rintro rfl
      rw [IsLetter_newline] at hc
      cases hc
    have hp : isPunct c = false := by
      cases hq : isPunct c
      · rfl
      · rw [isPunct_letter K c hq] at hc; cases hc
    have h := Lex_default K pos c (cs ++ rest) lst hn hp (letter_not_space K c hc)
    rw [if_neg (by rw [letter_not_digit K c hc]; simp), if_pos hc] at h
    have e : c :: (cs ++ rest) = (c :: cs) ++ rest := rfl
    rw [e, takeWhile_run _ _ hw hrest, dropWhile_run _ _ hw hrest] at h
    exact h

theorem Lex_letter_run_witness :
    (⟨⟨1, 1⟩, ⟨"define x".toList, none⟩⟩ : Lexer).reader.buf = "define".toList ++ " x".toList
    ∧ "define".toList ≠ []
    ∧ (∀ c ∈ "define".toList, IsLetter sampleTables c = true)
    ∧ (∀ x ∈ " x".toList.head?, IsLetter sampleTables x = false)
    ∧ Lex sampleTables ⟨⟨1, 1⟩, ⟨"define x".toList, none⟩⟩
        = .ok (⟨⟨1, 2⟩, IDENT, "define"⟩, ⟨⟨1, 7⟩, ⟨" x".toList, none⟩⟩) :=
  ⟨rfl, by decide, by decide, by decide,
    (Lex_letter_run sampleTables ⟨⟨1, 1⟩, ⟨"define x".toList, none⟩⟩ "define".toList
      " x".toList rfl (by decide) (by decide) (by decide)).1⟩

/-- C3: when the remaining input starts with one of the ten runes `; + - * / = ( ) < >`, `Lex`
returns the kind of that rune (`SEMICOLON`, `ADD`, `SUB`, `MUL`, `DIV`, `ASSIGN`, `LPAREN`,
`RPAREN`, `LESSTHAN`, `GREATERTHAN`) with the one-rune lexeme, at the old position with the
column increased by 1 and the line unchanged, and leaves exactly the runes after it unread. -/
theorem Lex_punctuation (K : RangeTables) (l : Lexer) (c : Char) (k : Token) (rest : List Char)
    (hbuf : l.reader.buf = c :: rest)
    (hc : (c, k) ∈ [(';', SEMICOLON), ('+', ADD), ('-', SUB), ('*', MUL), ('/', DIV),
      ('=', ASSIGN), ('(', LPAREN), (')', RPAREN), ('<', LESSTHAN), ('>', GREATERTHAN)]) :
    ∃ l', Lex K l = .ok (⟨⟨l.pos.line, l.pos.column + 1⟩, k, String.singleton c⟩, l')
      ∧ l'.reader.buf = rest ∧ l'.pos = ⟨l.pos.line, l.pos.column + 1⟩ := by
  obtain ⟨pos, buf, lst⟩ := l
  simp only at hbuf
  subst hbuf
  exact ⟨_, Lex_punct K pos c k rest lst hc, rfl, rfl⟩

theorem Lex_punctuation_witness :
    (⟨⟨2, 4⟩, ⟨"<=".toList, none⟩⟩ : Lexer).reader.buf = '<' :: "=".toList
    ∧ ('<', LESSTHAN) ∈ [(';', SEMICOLON), ('+', ADD), ('-', SUB), ('*', MUL), ('/', DIV),
      ('=', ASSIGN), ('(', LPAREN), (')', RPAREN), ('<', LESSTHAN), ('>', GREATERTHAN)]
    ∧ ∃ l', Lex sampleTables ⟨⟨2, 4⟩, ⟨"<=".toList, none⟩⟩
        = .ok (⟨⟨2, 4 + 1⟩, LESSTHAN, String.singleton '<'⟩, l')
      ∧ l'.reader.buf = "=".toList ∧ l'.pos = ⟨2, 4 + 1⟩ :=
  ⟨rfl, by decide,
    Lex_punctuation sampleTables ⟨⟨2, 4⟩, ⟨"<=".toList, none⟩⟩ '<' LESSTHAN "=".toList rfl
      (by decide)⟩

/-- C4: when the remaining input starts with a rune `c` that is no newline, none of the ten
punctuation runes, and neither space nor digit nor letter, `Lex` does not fail: it returns
`ILLEGAL` with the one-rune lexeme `c` at the position after `c` and leaves exactly the runes
after `c` unread, so that the next call is a scan of `rest` from that position; and on the
input `@` two calls return `ILLEGAL @` and then `EOF`. -/
theorem Lex_illegal (K : RangeTables) (l : Lexer) (c : Char) (rest : List Char)
    (hbuf : l.reader.buf = c :: rest) (hn : c ≠ '\n')
    (hp : c ∉ [';', '+', '-', '*', '/', '=', '(', ')', '<', '>'])
    (hs : IsSpace K c = false) (hd : IsDigit K c = false) (hl : IsLetter K c = false) :
    (∃ l', Lex K l = .ok (⟨⟨l.pos.line, l.pos.column + 1⟩, ILLEGAL, String.singleton c⟩, l')
      ∧ l'.reader.buf = rest ∧ l'.pos = ⟨l.pos.line, l.pos.column + 1⟩
      ∧ Lex K l' = Lex K ⟨⟨l.pos.line, l.pos.column + 1⟩, ⟨rest, none⟩⟩)
    ∧ (LexTimes K 2 (NewLexer "@".toList)).map Prod.fst
        = .ok [⟨⟨1, 1⟩, ILLEGAL, "@"⟩, ⟨⟨1, 1⟩, EOF, ""⟩] := by
  refine ⟨?_, rfl⟩
  obtain ⟨pos, buf, lst⟩ := l
  simp only at hbuf
  subst hbuf
  have hp' : isPunct c = false := by
    cases hq : isPunct c
    · rfl
    · exact absurd (by simpa [isPunct, punctuation] using hq) hp
  have h := Lex_default K pos c rest lst hn hp' hs
  rw [hd, hl] at h
  simp only [Bool.false_eq_true, if_false] at h
  exact ⟨_, h, rfl, rfl, LexLoop_last K _ _ _ _⟩

theorem Lex_illegal_witness :
    (⟨⟨1, 0⟩, ⟨"@1".toList, none⟩⟩ : Lexer).reader.buf = '@' :: "1".toList
    ∧ '@' ≠ '\n'
    ∧ '@' ∉ [';', '+', '-', '*', '/', '=', '(', ')', '<', '>']
    ∧ IsSpace sampleTables '@' = false ∧ IsDigit sampleTables '@' = false
    ∧ IsLetter sampleTables '@' = false
    ∧ ∃ l', Lex sampleTables ⟨⟨1, 0⟩, ⟨"@1".toList, none⟩⟩
        = .ok (⟨⟨1, 0 + 1⟩, ILLEGAL, String.singleton '@'⟩, l')
      ∧ l'.reader.buf = "1".toList ∧ l'.pos = ⟨1, 0 + 1⟩
      ∧ Lex sampleTables l' = Lex sampleTables ⟨⟨1, 0 + 1⟩, ⟨"1".toList, none⟩⟩ :=
  ⟨rfl, by decide, by decide, by decide, by decide, by decide,
    (Lex_illegal sampleTables ⟨⟨1, 0⟩, ⟨"@1".toList, none⟩⟩ '@' "1".toList rfl (by decide)
      (by decide) (by decide) (by decide) (by decide)).1⟩

/-- C5: the scan of an input from a fresh lexer returns, and every token it returns before `EOF`
carries the position of its first rune: with `before` the text of the input in front of the
token's lexeme (the lexemes of the earlier tokens and space runes only), the line is 1 plus the
number of newlines in `before`, and the column is the number of runes of `before` after its last
newline, plus one; the lexeme starts there, for `NUMBER` and `IDENT` too. On the input
`ab`, newline, `cd` the tokens are `IDENT ab` at line 1 column 1 and `IDENT cd` at line 2
column 1. -/
theorem scan_positions (K : RangeTables) (input : List Char) :
    (∃ toks l', scan K input = .ok (toks, l')
      ∧ ∀ (i : Nat) (t : Tok), toks[i]? = some t →
        ∃ before after, input = before ++ t.lexeme.data ++ after
          ∧ before.filter (fun r => !IsSpace K r) = (lexemes (toks.take i)).data
          ∧ t.lexeme.data ≠ [] ∧ (∀ x ∈ t.lexeme.data, IsSpace K x = false)
          ∧ t.kind ≠ EOF
          ∧ t.pos.line = 1 + (before.count '\n' : Nat)
          ∧ t.pos.column = ((before.reverse.takeWhile fun r => r != '\n').length : Nat) + 1)
    ∧ (scan K "ab\ncd".toList).map Prod.fst
        = .ok [⟨⟨1, 1⟩, IDENT, "ab"⟩, ⟨⟨2, 1⟩, IDENT, "cd"⟩] := by
  refine ⟨?_, rfl⟩
  obtain ⟨toks, h, hsc⟩ := mainLoop_scanned K (input.length + 1) [] input none
    (Nat.lt_succ_self _)
  refine ⟨toks, _, h, ?_⟩
  intro i t hi
  obtain ⟨before, after, h1, h2, h3, h4, h5, h6⟩ := Scanned_get K [] input toks hsc i t hi
  refine ⟨before, after, h1, h2, h3, h4, h5, ?_, ?_⟩
  · rw [h6]; rfl
  · rw [h6]; rfl

/-- C6: the scan of an input returns, and the concatenation, in order, of the lexemes of the
tokens returned before the first `EOF` is the input without its space runes; the newline is a
space rune. -/
theorem scan_lexemes (K : RangeTables) (input : List Char) :
    (∃ toks l', scan K input = .ok (toks, l')
      ∧ lexemes toks = String.mk (input.filter fun r => !IsSpace K r))
    ∧ IsSpace K '\n' = true := by
  refine ⟨?_, rfl⟩
  obtain ⟨toks, h, hsc⟩ := mainLoop_scanned K (input.length + 1) [] input none
    (Nat.lt_succ_self _)
  exact ⟨toks, _, h, String.ext (Scanned_lexemes K [] input toks hsc)⟩

/-- C7: once a call of `Lex` has returned an `EOF` token, its lexeme is empty, and every further
call on the lexer it left returns `EOF` with the empty lexeme at the same position and leaves the
lexer as it is: `n` further calls return `n` such tokens and the same lexer. -/
theorem Lex_after_EOF (K : RangeTables) (l : Lexer) (t : Tok) (l' : Lexer)
    (h : Lex K l = .ok (t, l')) (hk : t.kind = EOF) :
    t.lexeme = ""
    ∧ Lex K l' = .ok (⟨t.pos, EOF, ""⟩, l')
    ∧ ∀ n, LexTimes K n l' = .ok (List.replicate n ⟨t.pos, EOF, ""⟩, l') := by
  obtain ⟨t₀, l₀, ws, lex, h₀, hs⟩ := Lex_step K l.reader.buf l.pos l.reader.last
  rw [← Lexer_eta, h] at h₀
  simp only [Except.ok.injEq, Prod.mk.injEq] at h₀
  obtain ⟨rfl, rfl⟩ := h₀
  have hl : lex = [] := hs.eof_iff.1 hk
  subst hl
  have hl' : l' = ⟨t.pos, ⟨[], none⟩⟩ := by
    rw [Lexer_eta l', hs.tok_pos, hs.end_pos, hs.at_end rfl]
    simp
  have hstep : Lex K l' = .ok (⟨t.pos, EOF, ""⟩, l') := by
    rw [hl']
    exact Lex_nil K t.pos none
  refine ⟨by rw [hs.lexeme], hstep, ?_⟩
  intro n
  induction n with
  | zero => rfl
  | succ n ih => simp only [LexTimes, hstep, ih, List.replicate_succ]

theorem Lex_after_EOF_witness :
    Lex sampleTables (NewLexer " \n ".toList)
      = .ok (⟨⟨2, 1⟩, EOF, ""⟩, ⟨⟨2, 1⟩, ⟨[], none⟩⟩)
    ∧ (⟨⟨2, 1⟩, EOF, ""⟩ : Tok).kind = EOF
    ∧ (⟨⟨2, 1⟩, EOF, ""⟩ : Tok).lexeme = ""
    ∧ Lex sampleTables ⟨⟨2, 1⟩, ⟨[], none⟩⟩
        = .ok (⟨(⟨⟨2, 1⟩, EOF, ""⟩ : Tok).pos, EOF, ""⟩, ⟨⟨2, 1⟩, ⟨[], none⟩⟩)
    ∧ ∀ n, LexTimes sampleTables n ⟨⟨2, 1⟩, ⟨[], none⟩⟩
        = .ok (List.replicate n ⟨(⟨⟨2, 1⟩, EOF, ""⟩ : Tok).pos, EOF, ""⟩,
            ⟨⟨2, 1⟩, ⟨[], none⟩⟩) :=
  ⟨rfl, rfl,
    Lex_after_EOF sampleTables (NewLexer " \n ".toList) ⟨⟨2, 1⟩, EOF, ""⟩ ⟨⟨2, 1⟩, ⟨[], none⟩⟩
      rfl rfl⟩

/-- C8: on an input of space runes only (newlines included) the first call of `Lex` on a fresh
lexer returns `EOF` with the empty lexeme, the scan returns no token before it, and the line of
the `EOF` token is 1 plus the number of newline runes of the input. -/
theorem Lex_all_space (K : RangeTables) (input : List Char)
    (h : ∀ c ∈ input, IsSpace K c = true) :
    ∃ col : Int,
      Lex K (NewLexer input)
        = .ok (⟨⟨1 + (input.count '\n' : Nat), col⟩, EOF, ""⟩,
            ⟨⟨1 + (input.count '\n' : Nat), col⟩, ⟨[], none⟩⟩)
      ∧ scan K input = .ok ([], ⟨⟨1 + (input.count '\n' : Nat), col⟩, ⟨[], none⟩⟩) := by
  have hL := Lex_spaces K input ⟨1, 0⟩ none h
  rw [← posOf_nil, foldl_stepPos_posOf, List.nil_append] at hL
  refine ⟨(posOf input).column, hL, ?_⟩
  have e : scan K input = mainLoop K (input.length + 1) ⟨posOf [], ⟨input, none⟩⟩ := rfl
  rw [e]
  simp only [mainLoop, hL, if_true]
  rfl

theorem Lex_all_space_witness :
    (∀ c ∈ " \t\n\r\n ".toList, IsSpace sampleTables c = true)
    ∧ ∃ col : Int,
      Lex sampleTables (NewLexer " \t\n\r\n ".toList)
        = .ok (⟨⟨1 + (" \t\n\r\n ".toList.count '\n' : Nat), col⟩, EOF, ""⟩,
            ⟨⟨1 + (" \t\n\r\n ".toList.count '\n' : Nat), col⟩, ⟨[], none⟩⟩)
      ∧ scan sampleTables " \t\n\r\n ".toList
        = .ok ([], ⟨⟨1 + (" \t\n\r\n ".toList.count '\n' : Nat), col⟩, ⟨[], none⟩⟩) :=
  ⟨by decide, Lex_all_space sampleTables " \t\n\r\n ".toList (by decide)⟩

/-- C9: `Token.String` gives `EOF`, `IDENT`, `NUMBER` their names, `ADD`, `SUB`, `MUL`, `DIV`,
`ASSIGN` the runes `+ - * / =`, and `DEFINE`, `SEMICOLON`, `LPAREN`, `RPAREN`, `LESSTHAN`,
`GREATERTHAN` the texts `DEFINE`, `;`, `LPAREN`, `RPAREN`, `<`, `>`. -/
theorem Token_String_table :
    Token.String EOF = some "EOF" ∧ Token.String IDENT = some "IDENT"
    ∧ Token.String NUMBER = some "NUMBER" ∧ Token.String ADD = some "+"
    ∧ Token.String SUB = some "-" ∧ Token.String MUL = some "*" ∧ Token.String DIV = some "/"
    ∧ Token.String ASSIGN = some "=" ∧ Token.String DEFINE = some "DEFINE"
    ∧ Token.String SEMICOLON = some ";" ∧ Token.String LPAREN = some "LPAREN"
    ∧ Token.String RPAREN = some "RPAREN" ∧ Token.String LESSTHAN = some "<"
    ∧ Token.String GREATERTHAN = some ">" := by
  decide

/-- C10: every call of `Lex` returns: the loop of `Lex` gives the same token and lexer with
every step budget above the number of remaining runes, and a call that returns a token other
than `EOF` leaves strictly fewer runes unread; the loop of `main` returns as well, with the same
result for every budget above the length of the input, and returns at most as many tokens as the
input has runes. -/
theorem Lex_terminates (K : RangeTables) :
    (∀ l : Lexer, ∃ t l', Lex K l = .ok (t, l')
      ∧ (∀ n, l.reader.buf.length < n → LexLoop K n l = .ok (t, l'))
      ∧ (t.kind ≠ EOF → l'.reader.buf.length < l.reader.buf.length))
    ∧ (∀ input : List Char, ∃ toks l', scan K input = .ok (toks, l')
      ∧ (∀ n, input.length < n → mainLoop K n (NewLexer input) = .ok (toks, l'))
      ∧ toks.length ≤ input.length) := by
  constructor
  · intro l
    obtain ⟨t, l', ws, lex, h, hs⟩ := Lex_step K l.reader.buf l.pos l.reader.last
    rw [← Lexer_eta] at h hs
    refine ⟨t, l', h, ?_, ?_⟩
    · intro n hn
      rw [← h, Lexer_eta l]
      exact LexLoop_fuel K _ n _ _ hn
    · intro hk
      have hl : lex ≠ [] := fun e => hk (hs.eof_iff.2 e)
      have hpos : 0 < lex.length := List.length_pos.2 hl
      rw [hs.split]
      simp only [List.length_append]
      omega
  · intro input
    obtain ⟨toks, h, hsc⟩ := mainLoop_scanned K (input.length + 1) [] input none
      (Nat.lt_succ_self _)
    refine ⟨toks, _, h, ?_, Scanned_length K [] input toks hsc⟩
    intro n hn
    rw [← h]
    exact mainLoop_fuel K n (input.length + 1) (NewLexer input) hn (Nat.lt_succ_self _)

/-! ## Further lemmas -/

theorem lexIntLoopWith_digit (K : RangeTables) : ∀ (n : Nat) (l : Lexer) (acc : String),
    lexIntLoopWith (IsDigit K) n l acc = lexIntLoop K n l acc := by
  intro n
  induction n with
  | zero => intro l acc; rfl
  | succ n ih =>
    intro l acc
    simp only [lexIntLoopWith, lexIntLoop, ih]

theorem lexIdentLoop_with (K : RangeTables) : ∀ (n : Nat) (l : Lexer) (acc : String),
    lexIdentLoop K n l acc = lexIntLoopWith (IsLetter K) n l acc := by
  intro n
  induction n with
  | zero => intro l acc; rfl
  | succ n ih =>
    intro l acc
    simp only [lexIntLoopWith, lexIdentLoop, ih, lexIdentSwitch_eq]

theorem punctuation_kind (c : Char) (k : Token) (h : (c, k) ∈ punctuation) :
    k ≠ NUMBER ∧ k ≠ IDENT := by
  simp only [punctuation, List.mem_cons, Prod.mk.injEq, List.mem_singleton, List.not_mem_nil,
    or_false] at h
  rcases h with h | h | h | h | h | h | h | h | h | h <;>
    (obtain ⟨_, rfl⟩ := h; exact ⟨by decide, by decide⟩)

/-- What `Lex` returns as `NUMBER` is a non-empty text of digits, and what it returns as `IDENT`
a non-empty text of letters. -/
theorem Lex_classified (K : RangeTables) : ∀ (buf : List Char) (pos : Position)
    (lst : Option Char) (t : Tok) (l' : Lexer), Lex K ⟨pos, ⟨buf, lst⟩⟩ = .ok (t, l') →
    (t.kind = NUMBER → t.lexeme.data ≠ [] ∧ ∀ c ∈ t.lexeme.data, IsDigit K c = true)
    ∧ (t.kind = IDENT → t.lexeme.data ≠ [] ∧ ∀ c ∈ t.lexeme.data, IsLetter K c = true) := by
  intro buf
  induction buf with
  | nil =>
    intro pos lst t l' h
    rw [Lex_nil] at h
    simp only [Except.ok.injEq, Prod.mk.injEq] at h
    obtain ⟨rfl, _⟩ := h
    exact ⟨fun e => absurd e (by decide : EOF ≠ NUMBER),
      fun e => absurd e (by decide : EOF ≠ IDENT)⟩
  | cons c cs ih =>
    intro pos lst t l' h
    cases hs : IsSpace K c
    · have hn : c ≠ '\n' := ne_newline_of_not_space K c hs
      cases hp : isPunct c
      · rw [Lex_default K pos c cs lst hn hp hs] at h
        by_cases hd : IsDigit K c = true
        · rw [if_pos hd] at h
          simp only [Except.ok.injEq, Prod.mk.injEq] at h
          obtain ⟨rfl, _⟩ := h
          refine ⟨fun _ => ⟨takeWhile_cons_ne_nil c cs hd, fun x hx => List.mem_takeWhile_imp hx⟩,
            fun e => absurd e (by decide : NUMBER ≠ IDENT)⟩
        · rw [if_neg hd] at h
          by_cases hl : IsLetter K c = true
          · rw [if_pos hl] at h
            simp only [Except.ok.injEq, Prod.mk.injEq] at h
            obtain ⟨rfl, _⟩ := h
            refine ⟨fun e => absurd e (by decide : IDENT ≠ NUMBER),
              fun _ => ⟨takeWhile_cons_ne_nil c cs hl, fun x hx => List.mem_takeWhile_imp hx⟩⟩
          · rw [if_neg hl] at h
            simp only [Except.ok.injEq, Prod.mk.injEq] at h
            obtain ⟨rfl, _⟩ := h
            exact ⟨fun e => absurd e (by decide : ILLEGAL ≠ NUMBER),
              fun e => absurd e (by decide : ILLEGAL ≠ IDENT)⟩
      · obtain ⟨k, hk, _⟩ := isPunct_kind c hp
        rw [Lex_punct K pos c k cs lst hk] at h
        simp only [Except.ok.injEq, Prod.mk.injEq] at h
        obtain ⟨rfl, _⟩ := h
        have := punctuation_kind c k hk
        exact ⟨fun e => absurd e this.1, fun e => absurd e this.2⟩
    · rw [Lex_space K pos c cs lst hs] at h
      exact ih _ _ t l' h

/-! ## The position between calls -/

/-- A call of `Lex` on a lexer whose position is that of the consumed text `before` leaves a
lexer whose position is that of the text consumed then. -/
theorem Lex_step_posOf (K : RangeTables) (before buf : List Char) (lst : Option Char) :
    ∃ t l' ws lex, Lex K ⟨posOf before, ⟨buf, lst⟩⟩ = .ok (t, l')
      ∧ LexStep K ⟨posOf before, ⟨buf, lst⟩⟩ t l' ws lex
      ∧ buf = ws ++ lex ++ l'.reader.buf
      ∧ l'.pos = posOf (before ++ ws ++ lex)
      ∧ t.pos = posOf (before ++ ws ++ lex.take 1) := by
  obtain ⟨t, l', ws, lex, h, hs⟩ := Lex_step K buf (posOf before) lst
  refine ⟨t, l', ws, lex, h, hs, hs.split, ?_, ?_⟩
  · rw [hs.end_pos, posOf_solid K _ lex hs.solid]
    simp only [foldl_stepPos_posOf]
  · rw [hs.tok_pos, posOf_solid K _ (lex.take 1) fun x hx => hs.solid x (List.mem_of_mem_take hx)]
    simp only [foldl_stepPos_posOf]

theorem LexTimes_posOf (K : RangeTables) : ∀ (n : Nat) (before buf : List Char)
    (lst : Option Char),
    ∃ toks l' consumed, LexTimes K n ⟨posOf before, ⟨buf, lst⟩⟩ = .ok (toks, l')
      ∧ before ++ buf = consumed ++ l'.reader.buf ∧ l'.pos = posOf consumed := by
  intro n
  induction n with
  | zero => intro before buf lst; exact ⟨[], _, before, rfl, rfl, rfl⟩
  | succ n ih =>
    intro before buf lst
    obtain ⟨t, l', ws, lex, h, _, hsplit, hend, _⟩ := Lex_step_posOf K before buf lst
    obtain ⟨ts, l'', consumed, h2, hc, hp⟩ :=
      ih (before ++ ws ++ lex) l'.reader.buf l'.reader.last
    rw [← hend, ← Lexer_eta] at h2
    refine ⟨t :: ts, l'', consumed, ?_, ?_, hp⟩
    · simp only [LexTimes, h, h2]
    · rw [← hc, hsplit]
      simp only [List.append_assoc]

theorem posOf_line_pos (xs : List Char) : 1 ≤ (posOf xs).line ∧ 0 ≤ (posOf xs).column := by
  unfold posOf
  constructor <;> simp only <;> omega

/-! ## The order of positions -/

theorem lexLe_stepPos (p : Position) (c : Char) : p.lexLt (stepPos p c) := by
  unfold stepPos Position.lexLt
  by_cases h : c = '\n'
  · rw [if_pos h]; left; simp
  · rw [if_neg h]; right; simp

theorem posOf_lexLe : ∀ (ys xs : List Char), (posOf xs).lexLe (posOf (xs ++ ys)) := by
  intro ys
  induction ys with
  | nil => intro xs; unfold Position.lexLe; simp
  | cons y ys ih =>
    intro xs
    have h1 := lexLe_stepPos (posOf xs) y
    rw [← posOf_snoc] at h1
    have h2 := ih (xs ++ [y])
    simp only [List.append_assoc, List.singleton_append] at h2
    unfold Position.lexLe Position.lexLt at *
    omega

theorem posOf_lexLt (xs ys : List Char) (h : ys ≠ []) : (posOf xs).lexLt (posOf (xs ++ ys)) := by
  cases ys with
  | nil => exact absurd rfl h
  | cons y ys =>
    have h1 := lexLe_stepPos (posOf xs) y
    rw [← posOf_snoc] at h1
    have h2 := posOf_lexLe ys (xs ++ [y])
    simp only [List.append_assoc, List.singleton_append] at h2
    unfold Position.lexLe Position.lexLt at *
    omega

theorem Scanned_order (K : RangeTables) (b₀ buf : List Char) (toks : List Tok)
    (h : Scanned K b₀ buf toks) :
    (∀ t ∈ toks, (posOf b₀).lexLt t.pos ∧ t.pos.lexLe (posOf (b₀ ++ buf)) ∧ t.kind ≠ EOF)
    ∧ (toks.map Tok.pos).Pairwise Position.lexLt := by
  induction h with
  | done before ws _ => simp
  | token b₀ ws lex rest t ts hws hl hlex hlx hk hpos _ ih =>
    obtain ⟨c, cs, rfl⟩ : ∃ c cs, lex = c :: cs := by
      cases lex with
      | nil => exact absurd rfl hl
      | cons c cs => exact ⟨c, cs, rfl⟩
    have hc : c ≠ '\n' := ne_newline_of_not_space K c (hlex c (by simp))
    have htp : t.pos = posOf (b₀ ++ (ws ++ [c])) := by
      rw [hpos, ← List.append_assoc, posOf_snoc]
      simp [stepPos, hc]
    have h1 : (posOf b₀).lexLt t.pos := by
      rw [htp]; exact posOf_lexLt _ _ (by simp)
    have h2 : t.pos.lexLe (posOf (b₀ ++ ws ++ (c :: cs))) := by
      have := posOf_lexLe cs (b₀ ++ (ws ++ [c]))
      rw [htp]
      simpa [List.append_assoc] using this
    have h3 := posOf_lexLe rest (b₀ ++ ws ++ (c :: cs))
    have e : b₀ ++ ws ++ (c :: cs) ++ rest = b₀ ++ (ws ++ (c :: cs) ++ rest) := by
      simp [List.append_assoc]
    rw [e] at h3 ih
    refine ⟨?_, ?_⟩
    · intro u hu
      rcases List.mem_cons.1 hu with rfl | hu
      · refine ⟨h1, ?_, hk⟩
        unfold Position.lexLe Position.lexLt at *
        omega
      · obtain ⟨i1, i2, i3⟩ := ih.1 u hu
        refine ⟨?_, i2, i3⟩
        unfold Position.lexLe Position.lexLt at *
        omega
    · rw [List.map_cons, List.pairwise_cons]
      refine ⟨?_, ih.2⟩
      intro p hp
      obtain ⟨u, hu, rfl⟩ := List.mem_map.1 hp
      obtain ⟨i1, _, _⟩ := ih.1 u hu
      unfold Position.lexLe Position.lexLt at *
      omega

/-- The calls of `Lex` that the loop of `main` makes are the first calls of `Lex`: the tokens it
collects, then the `EOF` token at the position of the lexer it leaves. -/
theorem mainLoop_LexTimes (K : RangeTables) : ∀ (n : Nat) (l : Lexer) (toks : List Tok)
    (l' : Lexer), mainLoop K n l = .ok (toks, l') →
    LexTimes K (toks.length + 1) l = .ok (toks ++ [⟨l'.pos, EOF, ""⟩], l') := by
  intro n
  induction n with
  | zero => intro l toks l' h; simp [mainLoop] at h
  | succ n ih =>
    intro l toks l' h
    obtain ⟨t, l₁, ws, lex, h₁, hs⟩ := Lex_step K l.reader.buf l.pos l.reader.last
    rw [← Lexer_eta] at h₁ hs
    by_cases hk : t.kind = EOF
    · simp only [mainLoop, h₁, hk, if_true, Except.ok.injEq, Prod.mk.injEq] at h
      obtain ⟨rfl, rfl⟩ := h
      have hl : lex = [] := hs.eof_iff.1 hk
      subst hl
      have ht : t = ⟨l₁.pos, EOF, ""⟩ := by
        obtain ⟨p, k, lx⟩ := t
        simp only at hk
        have h1 := hs.tok_pos
        have h2 := hs.end_pos
        have h3 := hs.lexeme
        simp only at h1 h3
        rw [h1, h2, hk, h3]
        simp
      simp only [List.length_nil, LexTimes, h₁, List.nil_append, ht]
    · simp only [mainLoop, h₁, hk, if_false] at h
      cases h2 : mainLoop K n l₁ with
      | error e => rw [h2] at h; simp at h
      | ok r =>
        obtain ⟨ts, l₂⟩ := r
        rw [h2] at h
        simp only [Except.ok.injEq, Prod.mk.injEq] at h
        obtain ⟨rfl, rfl⟩ := h
        have := ih l₁ ts l₂ h2
        rw [List.length_cons, LexTimes, h₁]
        simp only [this, List.cons_append]

/-! ## The recorded lexer -/

theorem lexIntLoopRec_eq (K : RangeTables) : ∀ (buf : List Char) (n : Nat) (pos : Position)
    (lst : Option Char) (o : Nat) (ops : List Op) (acc : String), buf.length < n →
    lexIntLoopRec K n ⟨pos, ⟨buf, lst⟩⟩ ⟨o, ops⟩ acc
      = .ok (acc ++ String.mk (buf.takeWhile (IsDigit K)),
          ⟨⟨pos.line, pos.column + (buf.takeWhile (IsDigit K)).length⟩,
           ⟨buf.dropWhile (IsDigit K), none⟩⟩,
          ⟨o + (buf.takeWhile (IsDigit K)).length, ops ++ runOps (IsDigit K) o buf⟩) := by
  intro buf
  induction buf with
  | nil =>
    intro n pos lst o ops acc hn
    obtain ⟨m, rfl⟩ : ∃ m, n = m + 1 := ⟨n - 1, by simp at hn; omega⟩
    have : acc ++ String.mk [] = acc := by apply String.ext; simp [String.data_append]
    simp [lexIntLoopRec, ReadRuneRec, ReadRune, this, runOps]
  | cons c cs ih =>
    intro n pos lst o ops acc hn
    obtain ⟨m, rfl⟩ : ∃ m, n = m + 1 := ⟨n - 1, by simp at hn; omega⟩
    have hm : cs.length < m := by simp at hn; omega
    by_cases hc : IsDigit K c = true
    · simp only [lexIntLoopRec, ReadRuneRec, ReadRune, advance, hc, if_true,
        List.takeWhile_cons_of_pos, List.dropWhile_cons_of_pos, runOps]
      rw [ih m _ _ _ _ _ hm, append_mk_cons]
      simp only [List.length_cons, Nat.cast_add, Nat.cast_one, List.append_assoc,
        List.singleton_append]
      have e1 : pos.column + 1 + ((cs.takeWhile (IsDigit K)).length : Int)
          = pos.column + (((cs.takeWhile (IsDigit K)).length : Int) + 1) := by omega
      have e2 : o + 1 + (cs.takeWhile (IsDigit K)).length
          = o + ((cs.takeWhile (IsDigit K)).length + 1) := by omega
      rw [e1, e2]
    · have hc' : IsDigit K c = false := by simpa using hc
      have : acc ++ String.mk [] = acc := by apply String.ext; simp [String.data_append]
      simp [lexIntLoopRec, ReadRuneRec, ReadRune, advance, hc', BackupRec, Backup, UnreadRune,
        this, runOps]

theorem lexIntRec_eq (K : RangeTables) (pos : Position) (buf : List Char) (lst : Option Char)
    (o : Nat) (ops : List Op) :
    lexIntRec K ⟨pos, ⟨buf, lst⟩⟩ ⟨o, ops⟩
      = .ok (String.mk (buf.takeWhile (IsDigit K)),
          ⟨⟨pos.line, pos.column + (buf.takeWhile (IsDigit K)).length⟩,
           ⟨buf.dropWhile (IsDigit K), none⟩⟩,
          ⟨o + (buf.takeWhile (IsDigit K)).length, ops ++ runOps (IsDigit K) o buf⟩) := by
  unfold lexIntRec
  rw [lexIntLoopRec_eq K buf _ pos lst o ops "" (Nat.lt_succ_self _)]
  congr 2

theorem lexIdentLoopRec_eq (K : RangeTables) : ∀ (buf : List Char) (n : Nat) (pos : Position)
    (lst : Option Char) (o : Nat) (ops : List Op) (acc : String), buf.length < n →
    lexIdentLoopRec K n ⟨pos, ⟨buf, lst⟩⟩ ⟨o, ops⟩ acc
      = .ok (acc ++ String.mk (buf.takeWhile (IsLetter K)),
          ⟨⟨pos.line, pos.column + (buf.takeWhile (IsLetter K)).length⟩,
           ⟨buf.dropWhile (IsLetter K), none⟩⟩,
          ⟨o + (buf.takeWhile (IsLetter K)).length, ops ++ runOps (IsLetter K) o buf⟩) := by
  intro buf
  induction buf with
  | nil =>
    intro n pos lst o ops acc hn
    obtain ⟨m, rfl⟩ : ∃ m, n = m + 1 := ⟨n - 1, by simp at hn; omega⟩
    have : acc ++ String.mk [] = acc := by apply String.ext; simp [String.data_append]
    simp [lexIdentLoopRec, ReadRuneRec, ReadRune, this, runOps]
  | cons c cs ih =>
    intro n pos lst o ops acc hn
    obtain ⟨m, rfl⟩ : ∃ m, n = m + 1 := ⟨n - 1, by simp at hn; omega⟩
    have hm : cs.length < m := by simp at hn; omega
    by_cases hc : IsLetter K c = true
    · simp only [lexIdentLoopRec, ReadRuneRec, ReadRune, advance, hc, if_true,
        List.takeWhile_cons_of_pos, List.dropWhile_cons_of_pos, runOps]
      rw [ih m _ _ _ _ _ hm, append_mk_cons]
      simp only [List.length_cons, Nat.cast_add, Nat.cast_one, List.append_assoc,
        List.singleton_append]
      have e1 : pos.column + 1 + ((cs.takeWhile (IsLetter K)).length : Int)
          = pos.column + (((cs.takeWhile (IsLetter K)).length : Int) + 1) := by omega
      have e2 : o + 1 + (cs.takeWhile (IsLetter K)).length
          = o + ((cs.takeWhile (IsLetter K)).length + 1) := by omega
      rw [e1, e2]
    · have hc' : IsLetter K c = false := by simpa using hc
      have : acc ++ String.mk [] = acc := by apply String.ext; simp [String.data_append]
      simp [lexIdentLoopRec, ReadRuneRec, ReadRune, advance, hc', BackupRec, Backup, UnreadRune,
        this, runOps, lexIdentSwitch_eq]

theorem lexIdentRec_eq (K : RangeTables) (pos : Position) (buf : List Char) (lst : Option Char)
    (o : Nat) (ops : List Op) :
    lexIdentRec K ⟨pos, ⟨buf, lst⟩⟩ ⟨o, ops⟩
      = .ok (String.mk (buf.takeWhile (IsLetter K)),
          ⟨⟨pos.line, pos.column + (buf.takeWhile (IsLetter K)).length⟩,
           ⟨buf.dropWhile (IsLetter K), none⟩⟩,
          ⟨o + (buf.takeWhile (IsLetter K)).length, ops ++ runOps (IsLetter K) o buf⟩) := by
  unfold lexIdentRec
  rw [lexIdentLoopRec_eq K buf _ pos lst o ops "" (Nat.lt_succ_self _)]
  congr 2

theorem LexLoopRec_last (K : RangeTables) (n : Nat) (pos : Position) (buf : List Char)
    (lst : Option Char) (j : Journal) :
    LexLoopRec K n ⟨pos, ⟨buf, lst⟩⟩ j = LexLoopRec K n ⟨pos, ⟨buf, none⟩⟩ j := by
  cases n with
  | zero => rfl
  | succ m => cases buf <;> rfl

theorem LexLoopRec_nil (K : RangeTables) (m : Nat) (pos : Position) (lst : Option Char)
    (o : Nat) (ops : List Op) :
    LexLoopRec K (m + 1) ⟨pos, ⟨[], lst⟩⟩ ⟨o, ops⟩
      = .ok (⟨pos, EOF, ""⟩, ⟨pos, ⟨[], none⟩⟩, ⟨o, ops ++ [.eof]⟩) := rfl

theorem LexLoopRec_punct (K : RangeTables) (m : Nat) (pos : Position) (c : Char) (k : Token)
    (rest : List Char) (lst : Option Char) (o : Nat) (ops : List Op)
    (h : (c, k) ∈ punctuation) :
    LexLoopRec K (m + 1) ⟨pos, ⟨c :: rest, lst⟩⟩ ⟨o, ops⟩
      = .ok (⟨⟨pos.line, pos.column + 1⟩, k, String.singleton c⟩,
             ⟨⟨pos.line, pos.column + 1⟩, ⟨rest, some c⟩⟩, ⟨o + 1, ops ++ [.read o]⟩) := by
  simp only [punctuation, List.mem_cons, Prod.mk.injEq, List.mem_singleton, List.not_mem_nil,
    or_false] at h
  rcases h with h | h | h | h | h | h | h | h | h | h <;> (obtain ⟨rfl, rfl⟩ := h; rfl)

theorem LexLoopRec_space (K : RangeTables) (m : Nat) (pos : Position) (w : Char)
    (rest : List Char) (lst : Option Char) (o : Nat) (ops : List Op)
    (h : IsSpace K w = true) :
    LexLoopRec K (m + 1) ⟨pos, ⟨w :: rest, lst⟩⟩ ⟨o, ops⟩
      = LexLoopRec K m ⟨stepPos pos w, ⟨rest, none⟩⟩ ⟨o + 1, ops ++ [.read o]⟩ := by
  by_cases hn : w = '\n'
  · subst hn
    show LexLoopRec K m _ _ = LexLoopRec K m _ _
    exact LexLoopRec_last K _ _ _ _ _
  · have hp : isPunct w = false := by
      cases hq : isPunct w
      · rfl
      · rw [isPunct_space K w hq] at h; cases h
    simp only [isPunct, punctuation, List.map, List.contains_cons, List.contains_nil,
      Bool.or_false, Bool.or_eq_false_iff, beq_eq_false_iff_ne, ne_eq] at hp
    obtain ⟨h1, h2, h3, h4, h5, h6, h7, h8, h9, h10⟩ := hp
    simp only [LexLoopRec, ReadRuneRec, ReadRune, advance, hn, if_false, h1, h2, h3, h4,
      h5, h6, h7, h8, h9, h10, h, if_true, stepPos]
    exact LexLoopRec_last K _ _ _ _ _

theorem LexLoopRec_default (K : RangeTables) (m : Nat) (pos : Position) (c : Char)
    (rest : List Char) (lst : Option Char) (o : Nat) (ops : List Op) (hn : c ≠ '\n')
    (hp : isPunct c = false) (hs : IsSpace K c = false) :
    LexLoopRec K (m + 1) ⟨pos, ⟨c :: rest, lst⟩⟩ ⟨o, ops⟩ =
      if IsDigit K c then
        .ok (⟨⟨pos.line, pos.column + 1⟩, NUMBER, String.mk ((c :: rest).takeWhile (IsDigit K))⟩,
          ⟨⟨pos.line, pos.column + ((c :: rest).takeWhile (IsDigit K)).length⟩,
           ⟨(c :: rest).dropWhile (IsDigit K), none⟩⟩,
          ⟨o + ((c :: rest).takeWhile (IsDigit K)).length,
           ops ++ .read o :: .unread o :: runOps (IsDigit K) o (c :: rest)⟩)
      else if IsLetter K c then
        .ok (⟨⟨pos.line, pos.column + 1⟩, IDENT, String.mk ((c :: rest).takeWhile (IsLetter K))⟩,
          ⟨⟨pos.line, pos.column + ((c :: rest).takeWhile (IsLetter K)).length⟩,
           ⟨(c :: rest).dropWhile (IsLetter K), none⟩⟩,
          ⟨o + ((c :: rest).takeWhile (IsLetter K)).length,
           ops ++ .read o :: .unread o :: runOps (IsLetter K) o (c :: rest)⟩)
      else
        .ok (⟨⟨pos.line, pos.column + 1⟩, ILLEGAL, String.singleton c⟩,
          ⟨⟨pos.line, pos.column + 1⟩, ⟨rest, some c⟩⟩, ⟨o + 1, ops ++ [.read o]⟩) := by
  simp only [isPunct, punctuation, List.map, List.contains_cons, List.contains_nil,
    Bool.or_false, Bool.or_eq_false_iff, beq_eq_false_iff_ne, ne_eq] at hp
  obtain ⟨h1, h2, h3, h4, h5, h6, h7, h8, h9, h10⟩ := hp
  simp only [LexLoopRec, ReadRuneRec, ReadRune, advance, hn, if_false, h1, h2, h3, h4,
    h5, h6, h7, h8, h9, h10, hs, BackupRec, Backup, UnreadRune]
  have e : pos.column + 1 - 1 = pos.column := by omega
  have e' : o + 1 - 1 = o := by omega
  rw [e, e', lexIntRec_eq, lexIdentRec_eq]
  simp only [Bool.false_eq_true, if_false, List.append_assoc, List.singleton_append,
    List.cons_append, List.nil_append]

/-- The recorded `Lex` returns what `Lex` returns, and records the operations `lexOps`. -/
theorem LexRec_eq (K : RangeTables) : ∀ (buf : List Char) (pos : Position) (lst : Option Char)
    (o : Nat) (ops : List Op),
    ∃ t l', Lex K ⟨pos, ⟨buf, lst⟩⟩ = .ok (t, l')
      ∧ LexRec K ⟨pos, ⟨buf, lst⟩⟩ ⟨o, ops⟩
        = .ok (t, l', ⟨lexEnd K o buf, ops ++ lexOps K o buf⟩) := by
  intro buf
  induction buf with
  | nil => intro pos lst o ops; exact ⟨_, _, Lex_nil K pos lst, rfl⟩
  | cons c cs ih =>
    intro pos lst o ops
    cases hs : IsSpace K c
    · have hn : c ≠ '\n' := ne_newline_of_not_space K c hs
      cases hp : isPunct c
      · have e1 := LexLoopRec_default K (cs.length + 1) pos c cs lst o ops hn hp hs
        have e2 := Lex_default K pos c cs lst hn hp hs
        by_cases hd : IsDigit K c = true
        · rw [if_pos hd] at e1 e2
          refine ⟨_, _, e2, ?_⟩
          simp only [LexRec, List.length_cons, e1, lexEnd, lexOps, hs, hp, hd,
            Bool.false_eq_true, if_false, if_true]
        · rw [if_neg hd] at e1 e2
          by_cases hl : IsLetter K c = true
          · rw [if_pos hl] at e1 e2
            refine ⟨_, _, e2, ?_⟩
            simp only [LexRec, List.length_cons, e1, lexEnd, lexOps, hs, hp, hd, hl,
              Bool.false_eq_true, if_false, if_true]
          · rw [if_neg hl] at e1 e2
            refine ⟨_, _, e2, ?_⟩
            simp only [LexRec, List.length_cons, e1, lexEnd, lexOps, hs, hp, hd, hl,
              Bool.false_eq_true, if_false]
      · obtain ⟨k, hk, _⟩ := isPunct_kind c hp
        refine ⟨_, _, Lex_punct K pos c k cs lst hk, ?_⟩
        have e1 := LexLoopRec_punct K (cs.length + 1) pos c k cs lst o ops hk
        simp only [LexRec, List.length_cons, e1, lexEnd, lexOps, hs, hp,
          Bool.false_eq_true, if_false, if_true]
    · obtain ⟨t, l', h1, h2⟩ := ih (stepPos pos c) none (o + 1) (ops ++ [.read o])
      refine ⟨t, l', ?_, ?_⟩
      · rw [Lex_space K pos c cs lst hs]; exact h1
      · have e1 := LexLoopRec_space K (cs.length + 1) pos c cs lst o ops hs
        simp only [LexRec, List.length_cons, lexEnd, lexOps, hs, if_true] at h2 ⊢
        rw [e1, h2]
        simp only [List.append_assoc, List.singleton_append]

/-! ## Counting the operations -/

theorem count_read_cons (i o : Nat) (ops : List Op) :
    (Op.read o :: ops).count (.read i) = ops.count (.read i) + if o = i then 1 else 0 := by
  rw [List.count_cons]
  by_cases h : o = i <;> simp [h]

theorem count_read_unread (i o : Nat) (ops : List Op) :
    (Op.unread o :: ops).count (.read i) = ops.count (.read i) := by
  rw [List.count_cons]
  simp

theorem count_unread_cons (i o : Nat) (ops : List Op) :
    (Op.unread o :: ops).count (.unread i) = ops.count (.unread i) + if o = i then 1 else 0 := by
  rw [List.count_cons]
  by_cases h : o = i <;> simp [h]

theorem count_unread_read (i o : Nat) (ops : List Op) :
    (Op.read o :: ops).count (.unread i) = ops.count (.unread i) := by
  rw [List.count_cons]
  simp

theorem runOps_count (test : Char → Bool) : ∀ (buf : List Char) (o i : Nat),
    (runOps test o buf).count (.read i)
        ≤ (if o ≤ i ∧ i ≤ o + (buf.takeWhile test).length then 1 else 0)
    ∧ (runOps test o buf).count (.unread i)
        ≤ (if i = o + (buf.takeWhile test).length then 1 else 0) := by
  intro buf
  induction buf with
  | nil => intro o i; simp [runOps]
  | cons c cs ih =>
    intro o i
    by_cases hc : test c = true
    · obtain ⟨h1, h2⟩ := ih (o + 1) i
      simp only [runOps, hc, if_true, List.takeWhile_cons_of_pos, List.length_cons,
        count_read_cons, count_unread_read]
      constructor
      · split_ifs at * <;> omega
      · split_ifs at * <;> omega
    · have hc' : test c = false := by simpa using hc
      simp only [runOps, hc', Bool.false_eq_true, if_false, List.takeWhile_cons_of_neg,
        not_false_eq_true, List.length_nil, count_read_cons, count_unread_read,
        count_read_unread, count_unread_cons, List.count_nil]
      constructor
      · split_ifs <;> omega
      · split_ifs <;> omega

theorem lexOps_cons (K : RangeTables) (o : Nat) (c : Char) (cs : List Char) :
    lexOps K o (c :: cs) =
      if IsSpace K c then .read o :: lexOps K (o + 1) cs
      else if isPunct c then [.read o]
      else if IsDigit K c then .read o :: .unread o :: runOps (IsDigit K) o (c :: cs)
      else if IsLetter K c then .read o :: .unread o :: runOps (IsLetter K) o (c :: cs)
      else [.read o] := rfl

theorem lexEnd_cons (K : RangeTables) (o : Nat) (c : Char) (cs : List Char) :
    lexEnd K o (c :: cs) =
      if IsSpace K c then lexEnd K (o + 1) cs
      else if isPunct c then o + 1
      else if IsDigit K c then o + ((c :: cs).takeWhile (IsDigit K)).length
      else if IsLetter K c then o + ((c :: cs).takeWhile (IsLetter K)).length
      else o + 1 := rfl

theorem lexEnd_le (K : RangeTables) : ∀ (buf : List Char) (o : Nat), o ≤ lexEnd K o buf := by
  intro buf
  induction buf with
  | nil => intro o; exact Nat.le_refl _
  | cons c cs ih =>
    intro o
    have := ih (o + 1)
    rw [lexEnd_cons]
    split_ifs <;> omega

/-- The operations of one call of `Lex` from offset `o` to offset `lexEnd K o buf`: a rune inside
is read at most twice and unread at most once, the rune at the end offset at most once each (it
is given back), and no other rune is touched. -/
theorem lexOps_count (K : RangeTables) : ∀ (buf : List Char) (o i : Nat),
    (lexOps K o buf).count (.read i)
        ≤ (if i < o then 0 else if i < lexEnd K o buf then 2
            else if i = lexEnd K o buf ∧ o < lexEnd K o buf then 1 else 0)
    ∧ (lexOps K o buf).count (.unread i)
        ≤ (if o ≤ i ∧ i ≤ lexEnd K o buf ∧ o < lexEnd K o buf then 1 else 0) := by
  intro buf
  induction buf with
  | nil => intro o i; simp [lexOps]
  | cons c cs ih =>
    intro o i
    rw [lexOps_cons, lexEnd_cons]
    cases hs : IsSpace K c
    · cases hp : isPunct c
      · by_cases hd : IsDigit K c = true
        · obtain ⟨h1, h2⟩ := runOps_count (IsDigit K) (c :: cs) o i
          have hpos : 0 < ((c :: cs).takeWhile (IsDigit K)).length :=
            List.length_pos.2 (takeWhile_cons_ne_nil c cs hd)
          simp only [hd, Bool.false_eq_true, if_false, if_true,
            count_read_cons, count_unread_read, count_read_unread, count_unread_cons]
          generalize ((c :: cs).takeWhile (IsDigit K)).length = len at *
          generalize (runOps (IsDigit K) o (c :: cs)).count (.read i) = r at *
          generalize (runOps (IsDigit K) o (c :: cs)).count (.unread i) = u at *
          constructor
          · clear h2; split_ifs at * <;> omega
          · clear h1; split_ifs at * <;> omega
        · by_cases hl : IsLetter K c = true
          · obtain ⟨h1, h2⟩ := runOps_count (IsLetter K) (c :: cs) o i
            have hpos : 0 < ((c :: cs).takeWhile (IsLetter K)).length :=
              List.length_pos.2 (takeWhile_cons_ne_nil c cs hl)
            simp only [hd, hl, Bool.false_eq_true, if_false, if_true,
              count_read_cons, count_unread_read, count_read_unread, count_unread_cons]
            generalize ((c :: cs).takeWhile (IsLetter K)).length = len at *
            generalize (runOps (IsLetter K) o (c :: cs)).count (.read i) = r at *
            generalize (runOps (IsLetter K) o (c :: cs)).count (.unread i) = u at *
            constructor
            · clear h2; split_ifs at * <;> omega
            · clear h1; split_ifs at * <;> omega
          · simp only [hd, hl, Bool.false_eq_true, if_false,
              count_read_cons, count_unread_read, List.count_nil]
            constructor
            · split_ifs <;> omega
            · split_ifs <;> omega
      · simp only [Bool.false_eq_true, if_false, if_true,
          count_read_cons, count_unread_read, List.count_nil]
        constructor
        · split_ifs <;> omega
        · split_ifs <;> omega
    · obtain ⟨h1, h2⟩ := ih (o + 1) i
      have hle := lexEnd_le K cs (o + 1)
      simp only [if_true, count_read_cons, count_unread_read]
      generalize lexEnd K (o + 1) cs = e at *
      generalize (lexOps K (o + 1) cs).count (.read i) = r at *
      generalize (lexOps K (o + 1) cs).count (.unread i) = u at *
      constructor
      · clear h2; split_ifs at * <;> omega
      · clear h1; split_ifs at * <;> omega

/-! ## The discipline of the unreads -/

theorem Disciplined_append (a b : List Op) (ha : Disciplined a) (hb : Disciplined b) :
    Disciplined (a ++ b) := by
  intro k i h
  by_cases hk : k < a.length
  · rw [List.getElem?_append_left hk] at h
    obtain ⟨k', rfl, h'⟩ := ha k i h
    exact ⟨k', rfl, by rw [List.getElem?_append_left (by omega)]; exact h'⟩
  · rw [List.getElem?_append_right (by omega)] at h
    obtain ⟨k', hk', h'⟩ := hb _ i h
    refine ⟨a.length + k', by omega, ?_⟩
    rw [List.getElem?_append_right (by omega)]
    have : a.length + k' - a.length = k' := by omega
    rw [this]
    exact h'

theorem Disciplined_nil : Disciplined [] := by
  intro k i h
  simp at h

theorem Disciplined_eof : Disciplined [Op.eof] := by
  intro k i h
  match k, h with
  | 0, h => simp at h
  | k + 1, h => simp at h

theorem Disciplined_read (o : Nat) : Disciplined [Op.read o] := by
  intro k i h
  match k, h with
  | 0, h => simp at h
  | k + 1, h => simp at h

theorem Disciplined_read_unread (o : Nat) : Disciplined [Op.read o, Op.unread o] := by
  intro k i h
  match k, h with
  | 0, h => simp at h
  | 1, h =>
    simp only [List.getElem?_cons_succ, List.getElem?_cons_zero, Option.some.injEq,
      Op.unread.injEq] at h
    subst h
    exact ⟨0, rfl, rfl⟩
  | k + 2, h => simp at h

theorem runOps_disciplined (test : Char → Bool) : ∀ (buf : List Char) (o : Nat),
    Disciplined (runOps test o buf) := by
  intro buf
  induction buf with
  | nil => intro o; exact Disciplined_eof
  | cons c cs ih =>
    intro o
    by_cases hc : test c = true
    · simp only [runOps, hc, if_true]
      exact Disciplined_append [Op.read o] _ (Disciplined_read o) (ih (o + 1))
    · have hc' : test c = false := by simpa using hc
      simp only [runOps, hc', Bool.false_eq_true, if_false]
      exact Disciplined_read_unread o

theorem lexOps_disciplined (K : RangeTables) : ∀ (buf : List Char) (o : Nat),
    Disciplined (lexOps K o buf) := by
  intro buf
  induction buf with
  | nil => intro o; exact Disciplined_eof
  | cons c cs ih =>
    intro o
    rw [lexOps_cons]
    split_ifs
    · exact Disciplined_append [Op.read o] _ (Disciplined_read o) (ih (o + 1))
    · exact Disciplined_read o
    · exact Disciplined_append [Op.read o, Op.unread o] _ (Disciplined_read_unread o)
        (runOps_disciplined (IsDigit K) (c :: cs) o)
    · exact Disciplined_append [Op.read o, Op.unread o] _ (Disciplined_read_unread o)
        (runOps_disciplined (IsLetter K) (c :: cs) o)
    · exact Disciplined_read o

/-- Any number of recorded calls of `Lex` return what the calls of `Lex` return; the operations
they add to the journal are disciplined, and they read no rune more than three times and unread
none more than twice (the rune at the starting offset: two reads, one unread). -/
theorem LexTimesRec_spec (K : RangeTables) : ∀ (n : Nat) (buf : List Char) (pos : Position)
    (lst : Option Char) (o : Nat) (ops : List Op),
    ∃ toks l' o' T, LexTimes K n ⟨pos, ⟨buf, lst⟩⟩ = .ok (toks, l')
      ∧ LexTimesRec K n ⟨pos, ⟨buf, lst⟩⟩ ⟨o, ops⟩ = .ok (toks, l', ⟨o', ops ++ T⟩)
      ∧ Disciplined T
      ∧ ∀ i, T.count (.read i) ≤ (if i < o then 0 else if i = o then 2 else 3)
          ∧ T.count (.unread i) ≤ (if i < o then 0 else if i = o then 1 else 2) := by
  intro n
  induction n with
  | zero =>
    intro buf pos lst o ops
    refine ⟨[], _, o, [], rfl, by simp [LexTimesRec], Disciplined_nil, ?_⟩
    intro i
    simp
  | succ n ih =>
    intro buf pos lst o ops
    obtain ⟨t, l₁, h1, h2⟩ := LexRec_eq K buf pos lst o ops
    obtain ⟨ts, l', o', T, g1, g2, g3, g4⟩ :=
      ih l₁.reader.buf l₁.pos l₁.reader.last (lexEnd K o buf) (ops ++ lexOps K o buf)
    rw [← Lexer_eta] at g1 g2
    refine ⟨t :: ts, l', o', lexOps K o buf ++ T, ?_, ?_,
      Disciplined_append _ _ (lexOps_disciplined K buf o) g3, ?_⟩
    · simp only [LexTimes, h1, g1]
    · simp only [LexTimesRec, h2, g2, List.append_assoc]
    · intro i
      obtain ⟨c1, c2⟩ := lexOps_count K buf o i
      obtain ⟨b1, b2⟩ := g4 i
      have hle := lexEnd_le K buf o
      rw [List.count_append, List.count_append]
      generalize lexEnd K o buf = e at *
      generalize (lexOps K o buf).count (.read i) = r₁ at *
      generalize (lexOps K o buf).count (.unread i) = u₁ at *
      generalize T.count (.read i) = r₂ at *
      generalize T.count (.unread i) = u₂ at *
      constructor
      · clear c2 b2; split_ifs at * <;> omega
      · clear c1 b1; split_ifs at * <;> omega

/-! ## The claims, continued -/

/-- C11: on the input `(define x 12)` six calls of `Lex` on a fresh lexer return, in order,
`LPAREN (`, `IDENT define`, `IDENT x`, `NUMBER 12`, `RPAREN )` and `EOF` with the empty
lexeme. -/
theorem Lex_define_scenario (K : RangeTables) :
    (LexTimes K 6 (NewLexer "(define x 12)".toList)).map
        (fun r => r.1.map fun t => (t.kind, t.lexeme))
      = .ok [(LPAREN, "("), (IDENT, "define"), (IDENT, "x"), (NUMBER, "12"), (RPAREN, ")"),
          (EOF, "")] := rfl

/-- C12: after any number `n` of calls of `Lex` on a fresh lexer, the calls have returned and the
lexer's position counts the consumed text, which is the input without the runes still to be
read (a rune that was pushed back is among these): the line is 1 plus the number of newlines
consumed and the column is the number of runes consumed after the last consumed newline; so the
line is at least 1 and the column at least 0. -/
theorem LexTimes_position (K : RangeTables) (input : List Char) (n : Nat) :
    ∃ toks l' consumed, LexTimes K n (NewLexer input) = .ok (toks, l')
      ∧ input = consumed ++ l'.reader.buf
      ∧ l'.pos.line = 1 + (consumed.count '\n' : Nat)
      ∧ l'.pos.column = ((consumed.reverse.takeWhile fun r => r != '\n').length : Nat)
      ∧ 1 ≤ l'.pos.line ∧ 0 ≤ l'.pos.column := by
  obtain ⟨toks, l', consumed, h, hc, hp⟩ := LexTimes_posOf K n [] input none
  refine ⟨toks, l', consumed, h, by simpa using hc, ?_, ?_, ?_, ?_⟩
  · rw [hp]; rfl
  · rw [hp]; rfl
  · rw [hp]; exact (posOf_line_pos consumed).1
  · rw [hp]; exact (posOf_line_pos consumed).2

/-- C13: any number of calls of `Lex` on a fresh lexer return without the panic of `Backup`, and
in the journal of the reader operations they perform every unread comes right after the
successful read of the same rune: no unread is the first operation, follows an end-of-input
read, or follows another unread. -/
theorem Backup_after_read (K : RangeTables) (input : List Char) (n : Nat) :
    ∃ toks l' j, LexTimes K n (NewLexer input) = .ok (toks, l')
      ∧ LexTimesRec K n (NewLexer input) ⟨0, []⟩ = .ok (toks, l', j)
      ∧ ∀ (k i : Nat), j.ops[k]? = some (.unread i) →
          ∃ k', k = k' + 1 ∧ j.ops[k']? = some (.read i) := by
  obtain ⟨toks, l', o', T, h1, h2, h3, _⟩ := LexTimesRec_spec K n input ⟨1, 0⟩ none 0 []
  exact ⟨toks, l', ⟨o', [] ++ T⟩, h1, h2, by simpa using h3⟩

/-- C14: for every lexer `lexInt` returns: the remaining input splits into `d ++ rest` with `d`
all digits and `rest` empty or starting with a rune that is no digit, `d` is the longest prefix
of digits, `lexInt` returns the text `d`, leaves `rest` unread, keeps the line, and adds the
number of runes of `d` to the column, whether `rest` is empty (end of input) or not (the rune
after the run is pushed back). -/
theorem lexInt_longest_digits (K : RangeTables) (l : Lexer) :
    ∃ d rest, l.reader.buf = d ++ rest
      ∧ (∀ c ∈ d, IsDigit K c = true) ∧ (∀ x ∈ rest.head?, IsDigit K x = false)
      ∧ (∀ d', d' <+: l.reader.buf → (∀ c ∈ d', IsDigit K c = true) → d'.length ≤ d.length)
      ∧ lexInt K l
        = .ok (String.mk d, ⟨⟨l.pos.line, l.pos.column + d.length⟩, ⟨rest, none⟩⟩) := by
  refine ⟨l.reader.buf.takeWhile (IsDigit K), l.reader.buf.dropWhile (IsDigit K),
    (List.takeWhile_append_dropWhile _ _).symm, fun c hc => List.mem_takeWhile_imp hc, ?_, ?_,
    lexInt_eq K l.pos l.reader.buf l.reader.last⟩
  · intro x hx
    cases hb : l.reader.buf.dropWhile (IsDigit K) with
    | nil => rw [hb] at hx; simp at hx
    | cons y ys =>
      rw [hb] at hx
      simp only [List.head?_cons, Option.mem_def, Option.some.injEq] at hx
      subst hx
      have := List.head_dropWhile_not (IsDigit K) l.reader.buf (by rw [hb]; simp)
      simpa [hb] using this
  · intro d' hpre hd'
    obtain ⟨r, hr⟩ := hpre
    rw [← hr, List.takeWhile_append_of_pos hd', List.length_append]
    omega

/-- C15: `lexIdent` is `lexInt` with the digit test replaced by the letter test: for every step
budget, lexer and accumulator the two loops give the same result (text and lexer, or the same
failure), so do the two functions, the statements after the loop of `lexIdent` return the text
unchanged, and `lexIntWith` at the digit test is `lexInt` itself. -/
theorem lexIdent_eq_lexInt (K : RangeTables) :
    (∀ l : Lexer, lexIdent K l = lexIntWith (IsLetter K) l)
    ∧ (∀ (n : Nat) (l : Lexer) (acc : String),
        lexIdentLoop K n l acc = lexIntLoopWith (IsLetter K) n l acc)
    ∧ (∀ ident : String, lexIdentSwitch ident = ident)
    ∧ (∀ l : Lexer, lexIntWith (IsDigit K) l = lexInt K l)
    ∧ (∀ (n : Nat) (l : Lexer) (acc : String),
        lexIntLoopWith (IsDigit K) n l acc = lexIntLoop K n l acc) :=
  ⟨fun l => lexIdentLoop_with K _ l "", lexIdentLoop_with K, lexIdentSwitch_eq,
    fun l => lexIntLoopWith_digit K _ l "", lexIntLoopWith_digit K⟩

/-- C16: a token that `Lex` returns with kind `NUMBER` has a non-empty lexeme of digits only,
and one with kind `IDENT` a non-empty lexeme of letters only, from every lexer. -/
theorem Lex_lexeme_class (K : RangeTables) (l : Lexer) (t : Tok) (l' : Lexer)
    (h : Lex K l = .ok (t, l')) :
    (t.kind = NUMBER → t.lexeme.data ≠ [] ∧ ∀ c ∈ t.lexeme.data, IsDigit K c = true)
    ∧ (t.kind = IDENT → t.lexeme.data ≠ [] ∧ ∀ c ∈ t.lexeme.data, IsLetter K c = true) :=
  Lex_classified K l.reader.buf l.pos l.reader.last t l' h

theorem Lex_lexeme_class_witness :
    Lex sampleTables (NewLexer " 12ab".toList)
      = .ok (⟨⟨1, 2⟩, NUMBER, "12"⟩, ⟨⟨1, 3⟩, ⟨"ab".toList, none⟩⟩)
    ∧ ((⟨⟨1, 2⟩, NUMBER, "12"⟩ : Tok).kind = NUMBER →
        (⟨⟨1, 2⟩, NUMBER, "12"⟩ : Tok).lexeme.data ≠ []
        ∧ ∀ c ∈ (⟨⟨1, 2⟩, NUMBER, "12"⟩ : Tok).lexeme.data, IsDigit sampleTables c = true)
    ∧ ((⟨⟨1, 2⟩, NUMBER, "12"⟩ : Tok).kind = IDENT →
        (⟨⟨1, 2⟩, NUMBER, "12"⟩ : Tok).lexeme.data ≠ []
        ∧ ∀ c ∈ (⟨⟨1, 2⟩, NUMBER, "12"⟩ : Tok).lexeme.data, IsLetter sampleTables c = true) :=
  ⟨rfl, Lex_lexeme_class sampleTables (NewLexer " 12ab".toList) ⟨⟨1, 2⟩, NUMBER, "12"⟩
    ⟨⟨1, 3⟩, ⟨"ab".toList, none⟩⟩ rfl⟩

/-- C17: the kind `ILLEGAL` has no entry in the table: `Token.String` gives it the empty text,
and `Lex` returns that kind, on the input `@` for one. -/
theorem Token_String_ILLEGAL :
    Token.String ILLEGAL = some ""
    ∧ Lex sampleTables (NewLexer "@".toList)
        = .ok (⟨⟨1, 1⟩, ILLEGAL, "@"⟩, ⟨⟨1, 1⟩, ⟨[], some '@'⟩⟩) :=
  ⟨by decide, rfl⟩

/-- C18, as the code has it: on the input `a1` the scan is three calls of `Lex` (`IDENT`,
`NUMBER`, `EOF`), and the rune at offset 1 is read three times and unread twice: as the rune that
ends the identifier, as the rune that `Lex` dispatches on, and as the first rune of `lexInt`. -/
theorem scan_reads_thrice :
    (LexTimesRec sampleTables 3 (NewLexer "a1".toList) ⟨0, []⟩).map
        (fun r => (r.1.map Tok.kind, r.2.2.ops))
      = .ok ([IDENT, NUMBER, EOF],
          [.read 0, .unread 0, .read 0, .read 1, .unread 1, .read 1, .unread 1, .read 1,
           .eof, .eof])
    ∧ ¬ ([Op.read 0, .unread 0, .read 0, .read 1, .unread 1, .read 1, .unread 1, .read 1,
           .eof, .eof].count (.read 1) ≤ 2)
    ∧ ¬ ([Op.read 0, .unread 0, .read 0, .read 1, .unread 1, .read 1, .unread 1, .read 1,
           .eof, .eof].count (.unread 1) ≤ 1) :=
  ⟨rfl, by decide, by decide⟩

/-- C18, amended: the scan of an input is the calls of `Lex` up to the first `EOF`, and in the
journal of these calls every rune of the input is read at most three times and unread at most
twice. -/
theorem scan_reads (K : RangeTables) (input : List Char) :
    ∃ toks l' j, scan K input = .ok (toks, l')
      ∧ LexTimesRec K (toks.length + 1) (NewLexer input) ⟨0, []⟩
          = .ok (toks ++ [⟨l'.pos, EOF, ""⟩], l', j)
      ∧ ∀ i, j.ops.count (.read i) ≤ 3 ∧ j.ops.count (.unread i) ≤ 2 := by
  obtain ⟨toks, h, _⟩ := mainLoop_scanned K (input.length + 1) [] input none
    (Nat.lt_succ_self _)
  have hL : LexTimes K (toks.length + 1) ⟨⟨1, 0⟩, ⟨input, none⟩⟩
      = .ok (toks ++ [⟨posOf ([] ++ input), EOF, ""⟩], ⟨posOf ([] ++ input), ⟨[], none⟩⟩) :=
    mainLoop_LexTimes K _ _ _ _ h
  obtain ⟨toks₂, l₂, o', T, h1, h2, _, h4⟩ :=
    LexTimesRec_spec K (toks.length + 1) input ⟨1, 0⟩ none 0 []
  rw [h1] at hL
  simp only [Except.ok.injEq, Prod.mk.injEq] at hL
  obtain ⟨rfl, rfl⟩ := hL
  refine ⟨toks, _, ⟨o', [] ++ T⟩, h, h2, ?_⟩
  intro i
  obtain ⟨b1, b2⟩ := h4 i
  simp only [List.nil_append]
  constructor
  · split_ifs at b1 <;> omega
  · split_ifs at b2 <;> omega

/-- C19: when a rune `r` is available, reading it with the column increment and then calling
`Backup` gives back the lexer with the same remaining input, line and column as before the
read (the unread slot is empty afterwards), and the next read delivers `r` again. -/
theorem read_then_Backup (l : Lexer) (r : Char) (rest : List Char)
    (h : l.reader.buf = r :: rest) :
    ReadRune l.reader = (some r, ⟨rest, some r⟩)
    ∧ Backup (advance l ⟨rest, some r⟩) = .ok ⟨l.pos, ⟨l.reader.buf, none⟩⟩
    ∧ (ReadRune ⟨l.reader.buf, none⟩).1 = some r := by
  obtain ⟨⟨line, column⟩, buf, lst⟩ := l
  simp only at h
  subst h
  refine ⟨rfl, ?_, rfl⟩
  simp only [Backup, UnreadRune, advance]
  have e : column + 1 - 1 = column := by omega
  rw [e]

theorem read_then_Backup_witness :
    (⟨⟨2, 5⟩, ⟨"x1".toList, some ' '⟩⟩ : Lexer).reader.buf = 'x' :: "1".toList
    ∧ ReadRune (⟨⟨2, 5⟩, ⟨"x1".toList, some ' '⟩⟩ : Lexer).reader
        = (some 'x', ⟨"1".toList, some 'x'⟩)
    ∧ Backup (advance ⟨⟨2, 5⟩, ⟨"x1".toList, some ' '⟩⟩ ⟨"1".toList, some 'x'⟩)
        = .ok ⟨(⟨⟨2, 5⟩, ⟨"x1".toList, some ' '⟩⟩ : Lexer).pos,
            ⟨(⟨⟨2, 5⟩, ⟨"x1".toList, some ' '⟩⟩ : Lexer).reader.buf, none⟩⟩
    ∧ (ReadRune ⟨(⟨⟨2, 5⟩, ⟨"x1".toList, some ' '⟩⟩ : Lexer).reader.buf, none⟩).1 = some 'x' :=
  ⟨rfl, read_then_Backup ⟨⟨2, 5⟩, ⟨"x1".toList, some ' '⟩⟩ 'x' "1".toList rfl⟩

/-- C20: the scan of an input returns its tokens, none of kind `EOF`, and the next call returns
`EOF`; the positions of the tokens are strictly increasing in the lexicographic order of line and
column, and the position of the `EOF` token is greater than or equal to that of every token
before it, the last one included. -/
theorem scan_positions_increase (K : RangeTables) (input : List Char) :
    ∃ toks l', scan K input = .ok (toks, l')
      ∧ LexTimes K (toks.length + 1) (NewLexer input)
          = .ok (toks ++ [⟨l'.pos, EOF, ""⟩], l')
      ∧ (∀ t ∈ toks, t.kind ≠ EOF)
      ∧ (toks.map Tok.pos).Pairwise Position.lexLt
      ∧ ∀ t ∈ toks, t.pos.lexLe l'.pos := by
  obtain ⟨toks, h, hsc⟩ := mainLoop_scanned K (input.length + 1) [] input none
    (Nat.lt_succ_self _)
  have ho := Scanned_order K [] input toks hsc
  refine ⟨toks, _, h, mainLoop_LexTimes K _ _ _ _ h, fun t ht => (ho.1 t ht).2.2, ho.2,
    fun t ht => (ho.1 t ht).2.1⟩

end Bsclisp
